import Mathlib

/-!
# unreleased-changelog-release: a shallow embedding of `app.go` and `main.go`

The action promotes the "Unreleased" section of a changelog into a release,
commits the file, tags the commit (optionally moving the floating `vX` and
`vX.Y` aliases) and pushes commit and tags.

Go strings are modelled by the list of their characters.  Stateful code is
written in explicit state-passing style over a `World`; a Go function returning
`error` returns `Option Error` with the world it leaves, one returning
`(T, error)` returns `Except Error T`.

The libraries the action calls are not part of the repository.  The functions
of `golang.org/x/mod/semver` and `strconv` that decide the version references
are transcribed here.  The collaborators (go-git, go-changelog, net/http, the
file system, the shell) are modelled by their contract: every call is recorded
in the world's trace and fails when the world's fault schedule says so.  The
functions of the action take the sorting function as a parameter; `sort.Sort`
is `sort.insertionSort` below, over the order of go-changelog's releases,
`Releases.Less`, which is the precedence of semantic versions.
-/

namespace Release

/-- Go `string`, as the sequence of its characters. -/
abbrev GoString := List Char

/-! ## golang.org/x/mod/semver (the parts used by `new` and by the order of releases) -/

namespace semver

/-- The parsed form of a semantic version string (`semver.parsed`). -/
structure parsed where
  major : GoString
  minor : GoString
  patch : GoString
  short : GoString
  prerelease : GoString
  build : GoString
deriving DecidableEq, Repr

/-- The test `'0' <= c && c <= '9'` of the scanning loops. -/
def isDigit (c : Char) : Bool := decide ('0' ≤ c) && decide (c ≤ '9')

/-- Go `semver.parseInt`: a leading decimal number without leading zeroes, and the rest. -/
def parseInt (v : GoString) : Option (GoString × GoString) :=
  match v with
  | [] => none
  | c :: cs =>
    if c < '0' ∨ '9' < c then none
    else
      let t := c :: cs.takeWhile isDigit
      if c = '0' ∧ t.length ≠ 1 then none
      else some (t, cs.dropWhile isDigit)

/-- Go `semver.isIdentChar`. -/
def isIdentChar (c : Char) : Bool :=
  (decide ('A' ≤ c) && decide (c ≤ 'Z')) || (decide ('a' ≤ c) && decide (c ≤ 'z'))
    || (decide ('0' ≤ c) && decide (c ≤ '9')) || c == '-'

/-- Go `semver.isBadNum`: all digits, longer than one, with a leading zero. -/
def isBadNum (v : GoString) : Bool :=
  let i := (v.takeWhile isDigit).length
  i == v.length && decide (i > 1) && v.head? == some '0'

/-- The loop of `semver.parsePrerelease`: `ident` is `v[start:i]`, `seen` is `v[:i]`. -/
def parsePrereleaseLoop : GoString → GoString → GoString → Option (GoString × GoString)
  | [], ident, seen =>
    if ident = [] ∨ isBadNum ident = true then none else some (seen, [])
  | c :: cs, ident, seen =>
    if c = '+' then
      if ident = [] ∨ isBadNum ident = true then none else some (seen, c :: cs)
    else if isIdentChar c = false ∧ c ≠ '.' then none
    else if c = '.' then
      if ident = [] ∨ isBadNum ident = true then none
      else parsePrereleaseLoop cs [] (seen ++ [c])
    else parsePrereleaseLoop cs (ident ++ [c]) (seen ++ [c])

/-- Go `semver.parsePrerelease`. -/
def parsePrerelease (v : GoString) : Option (GoString × GoString) :=
  match v with
  | [] => none
  | c :: cs => if c ≠ '-' then none else parsePrereleaseLoop cs [] [c]

/-- The loop of `semver.parseBuild`: `ident` is `v[start:i]`, `seen` is `v[:i]`. -/
def parseBuildLoop : GoString → GoString → GoString → Option (GoString × GoString)
  | [], ident, seen => if ident = [] then none else some (seen, [])
  | c :: cs, ident, seen =>
    if isIdentChar c = false ∧ c ≠ '.' then none
    else if c = '.' then
      if ident = [] then none else parseBuildLoop cs [] (seen ++ [c])
    else parseBuildLoop cs (ident ++ [c]) (seen ++ [c])

/-- Go `semver.parseBuild`. -/
def parseBuild (v : GoString) : Option (GoString × GoString) :=
  match v with
  | [] => none
  | c :: cs => if c ≠ '+' then none else parseBuildLoop cs [] [c]

/-- Go `semver.parse`; `none` is `ok == false`. -/
def parse (v : GoString) : Option parsed :=
  match v with
  | [] => none
  | c :: v1 =>
    if c ≠ 'v' then none
    else
      match parseInt v1 with
      | none => none
      | some (major, []) =>
        some { major := major, minor := "0".toList, patch := "0".toList,
               short := ".0.0".toList, prerelease := [], build := [] }
      | some (major, d :: v3) =>
        if d ≠ '.' then none
        else
          match parseInt v3 with
          | none => none
          | some (minor, []) =>
            some { major := major, minor := minor, patch := "0".toList,
                   short := ".0".toList, prerelease := [], build := [] }
          | some (minor, e :: v5) =>
            if e ≠ '.' then none
            else
              match parseInt v5 with
              | none => none
              | some (patch, v6) =>
                match (if v6.head? = some '-' then parsePrerelease v6 else some ([], v6)) with
                | none => none
                | some (prerelease, v7) =>
                  match (if v7.head? = some '+' then parseBuild v7 else some ([], v7)) with
                  | none => none
                  | some (build, v8) =>
                    if v8 ≠ [] then none
                    else
                      some { major := major, minor := minor, patch := patch,
                             short := [], prerelease := prerelease, build := build }

/-- Go `semver.IsValid`. -/
def IsValid (v : GoString) : Bool := (parse v).isSome

/-- Go `semver.Major`: `v[:1+len(pv.major)]`, or the empty string when `v` is invalid. -/
def Major (v : GoString) : GoString :=
  match parse v with
  | none => []
  | some pv => v.take (1 + pv.major.length)

/-- Go `semver.MajorMinor`: the `vX.Y` prefix, completed with `.0` for a bare `vX`. -/
def MajorMinor (v : GoString) : GoString :=
  match parse v with
  | none => []
  | some pv =>
    let i := 1 + pv.major.length
    let j := i + 1 + pv.minor.length
    if j ≤ v.length ∧ v.get? i = some '.' ∧ (v.drop (i + 1)).take (j - (i + 1)) = pv.minor then
      v.take j
    else v.take i ++ ['.'] ++ pv.minor

/-- Go string comparison `x < y`: lexicographic, character by character (for
UTF-8 the order of the bytes is the order of the code points). -/
def stringLess : GoString → GoString → Bool
  | _, [] => false
  | [], _ :: _ => true
  | a :: x, b :: y => if a = b then stringLess x y else decide (a < b)

/-- Go `semver.compareInt`: decimal numbers without leading zeroes, by length
and then by text. -/
def compareInt (x y : GoString) : Int :=
  if x = y then 0
  else if x.length < y.length then -1
  else if x.length > y.length then 1
  else if stringLess x y = true then -1
  else 1

/-- Go `semver.nextIdent`: the identifier up to the next dot, and the rest. -/
def nextIdent (x : GoString) : GoString × GoString :=
  (x.takeWhile (fun c => c != '.'), x.dropWhile (fun c => c != '.'))

/-- Go `semver.isNum`: all characters are digits. -/
def isNum (v : GoString) : Bool :=
  let i := (v.takeWhile isDigit).length
  i == v.length

/-- The body of `if dx != dy` in `semver.comparePrerelease`: numeric
identifiers are below the others, two numeric ones compare by length and then
by text, two others by text. -/
def compareIdent (dx dy : GoString) : Int :=
  let ix := isNum dx
  let iy := isNum dy
  if ix ≠ iy then
    if ix = true then -1 else 1
  else if ix = true ∧ dx.length < dy.length then -1
  else if ix = true ∧ dx.length > dy.length then 1
  else if stringLess dx dy = true then -1
  else 1

/-- The loop of `semver.comparePrerelease`; every round shortens `x`, so
`x.length` rounds are enough. -/
def comparePrereleaseLoop : Nat → GoString → GoString → Int
  | 0, x, _ => if x = [] then -1 else 1
  | n + 1, x, y =>
    if x ≠ [] ∧ y ≠ [] then
      let dx := (nextIdent (x.drop 1)).1
      let dy := (nextIdent (y.drop 1)).1
      if dx ≠ dy then compareIdent dx dy
      else comparePrereleaseLoop n (nextIdent (x.drop 1)).2 (nextIdent (y.drop 1)).2
    else if x = [] then -1 else 1

/-- Go `semver.comparePrerelease`. -/
def comparePrerelease (x y : GoString) : Int :=
  if x = y then 0
  else if x = [] then 1
  else if y = [] then -1
  else comparePrereleaseLoop x.length x y

/-- Go `semver.Compare`: -1, 0 or +1; an invalid version is below every valid
one and equal to every invalid one. -/
def Compare (v w : GoString) : Int :=
  match parse v, parse w with
  | none, none => 0
  | none, some _ => -1
  | some _, none => 1
  | some pv, some pw =>
    if compareInt pv.major pw.major ≠ 0 then compareInt pv.major pw.major
    else if compareInt pv.minor pw.minor ≠ 0 then compareInt pv.minor pw.minor
    else if compareInt pv.patch pw.patch ≠ 0 then compareInt pv.patch pw.patch
    else comparePrerelease pv.prerelease pw.prerelease

end semver

/-! ## Errors -/

/-- Go `error` values: the two go-git sentinels the code compares against, any
other error of a collaborator, and the errors built by `fmt.Errorf`. -/
inductive Error where
  | ErrTagExists
  | ErrTagNotFound
  | external (code : Nat)
  | errorf (format : String) (args : List GoString)
  | wrapped (format : String) (args : List GoString) (cause : Error)
deriving DecidableEq, Repr

/-- Function `wrap(format, a...)` of `main.go` with the error as the last argument. -/
def wrap (format : String) (args : List GoString) (err : Error) : Error :=
  Error.wrapped format args err

/-! ## Data model -/

/-- Go `plumbing.Hash`. -/
abbrev Hash := Nat

/-- Go `object.Signature`. -/
structure Signature where
  Name : GoString
  Email : GoString
  When : Nat
deriving DecidableEq, Repr

/-- Go `githttp.BasicAuth`. -/
structure BasicAuth where
  Username : GoString
  Password : GoString
deriving DecidableEq, Repr

/-- Go `object.Tag`: an annotated tag object. -/
structure Tag where
  Name : GoString
  Target : Hash
  Message : GoString
  Tagger : Signature
deriving DecidableEq, Repr

/-- What a reference `refs/tags/<name>` names: a commit (lightweight tag) or a
tag object (annotated tag). -/
inductive TagTarget where
  | commit (hash : Hash)
  | tag (object : Tag)
deriving DecidableEq, Repr

/-- The commit a tag reference resolves to. -/
def TagTarget.resolve : TagTarget → Hash
  | .commit h => h
  | .tag t => t.Target

/-- Go `git.CreateTagOptions`. -/
structure CreateTagOptions where
  Message : GoString
  Tagger : Signature
deriving DecidableEq, Repr

/-- Go `git.PushOptions` (the fields the code sets). -/
structure PushOptions where
  RefSpecs : List GoString
  Auth : BasicAuth
  Force : Bool
deriving DecidableEq, Repr

/-- Go `git.Repository`, as far as the action observes it: the tag objects of the
object store (what `TagObjects` iterates), the references under `refs/tags/`
and the commit `HEAD` resolves to. -/
structure Repository where
  objects : List Tag
  tags : List (GoString × TagTarget)
  head : Hash
deriving DecidableEq, Repr

/-- Go `changelog.Release`. -/
structure ChangelogRelease where
  Version : Option GoString
  Date : Option GoString
  URL : Option GoString
  Changes : List GoString
deriving DecidableEq, Repr

/-- Go `changelog.Changelog`: the unreleased section and the dated releases. -/
structure Changelog where
  UnreleasedURL : Option GoString
  Unreleased : List GoString
  Releases : List ChangelogRelease
deriving DecidableEq, Repr

/-- The answer of the profile endpoint: the status code and the decoding of the
body into `struct { Email string }` (`none` when `json.Unmarshal` fails). -/
structure Response where
  StatusCode : Nat
  Body : Option GoString
deriving DecidableEq, Repr

/-- Calls to collaborators and lines written to standard output, in order. -/
inductive Event where
  | Print (format : String) (args : List GoString)
  | PrintError (err : Error)
  | NewParser (filename : GoString)
  | Parse
  | PlainOpen
  | Worktree
  | NewRequest (url : GoString)
  | Do (url : GoString) (authorization : GoString)
  | ReadAll
  | CreateReleaseFromUnreleasedWithURL (version date url : GoString)
  | SetUnreleasedURL (url : GoString)
  | SaveToFile (filename : GoString)
  | Add (filename : GoString)
  | Commit (message : GoString) (author committer : Signature)
  | TagObjects
  | ForEach
  | Head
  | CreateTag (name : GoString) (hash : Hash) (opts : CreateTagOptions)
  | DeleteTag (name : GoString)
  | Push (o : PushOptions)
  | Output (k v : GoString)
deriving DecidableEq, Repr

/-- Everything a run reads or changes.  `faults` schedules the outcome of the
coming collaborator calls: each call takes the first entry, `some code` makes
it fail with `Error.external code` and no effect, `none` (or an exhausted
schedule) lets it proceed. -/
structure World where
  env : List (GoString × GoString)
  clock : Nat
  today : GoString
  response : Response
  document : Changelog
  saved : Option (GoString × Changelog)
  repo : Repository
  nextCommit : Hash
  hashFirst : Bool
  faults : List (Option Nat)
  trace : List Event
deriving DecidableEq, Repr

/-- Struct `changelogFile`; the parsed content is `World.document`. -/
structure changelogFile where
  filename : GoString
deriving DecidableEq, Repr

/-- Struct `gitRepo`; repository and worktree are `World.repo`. -/
structure gitRepo where
  committer : Signature
  author : Signature
  auth : BasicAuth
deriving DecidableEq, Repr

/-- The `app` struct. -/
structure app where
  version : GoString
  refs : List GoString
  changelog : changelogFile
  git : gitRepo
deriving DecidableEq, Repr

/-! ## Collaborators -/

/-- Go `os.Getenv`: the value of the variable, empty when unset. -/
def Getenv (w : World) (key : String) : GoString :=
  match w.env.lookup key.toList with
  | some v => v
  | none => []

/-- The failure scheduled for the coming collaborator call, if any. -/
def World.fault (w : World) : Option Error :=
  match w.faults with
  | some code :: _ => some (Error.external code)
  | _ => none

/-- The world after a collaborator call that had no effect of its own: the
call is recorded and its entry of the fault schedule is used up. -/
def World.after (w : World) (e : Event) : World :=
  { w with faults := w.faults.tail, trace := w.trace ++ [e] }

/-- A collaborator call: its scheduled failure and the world after it. -/
def World.call (w : World) (e : Event) : Option Error × World :=
  (w.fault, w.after e)

/-- A line on standard output. -/
def World.print (w : World) (e : Event) : World :=
  { w with trace := w.trace ++ [e] }

/-- No collaborator call is scheduled to fail. -/
def World.faultFree (w : World) : Prop := ∀ f ∈ w.faults, f = none

namespace strconv

/-- Go `strconv.ParseBool`. -/
def ParseBool (str : GoString) : Except Error Bool :=
  if str = "1".toList ∨ str = "t".toList ∨ str = "T".toList ∨ str = "true".toList
      ∨ str = "TRUE".toList ∨ str = "True".toList then .ok true
  else if str = "0".toList ∨ str = "f".toList ∨ str = "F".toList ∨ str = "false".toList
      ∨ str = "FALSE".toList ∨ str = "False".toList then .ok false
  else .error (Error.errorf "strconv.ParseBool: parsing %q: invalid syntax" [str])

end strconv

namespace strings

/-- Go `strings.TrimPrefix`: `s` without the leading `p`, or `s` itself when it
does not start with `p`. -/
def TrimPrefix (s p : GoString) : GoString :=
  if p.isPrefixOf s = true then s.drop p.length else s

end strings

/-- The version of a release as `semver` reads it, with the `v` in front.  For
a release without version there is nothing to compare: it reads as the empty
string, which is not a version, and what is stated on the order of releases
is stated for documents whose releases all carry a version. -/
def ChangelogRelease.canonical (r : ChangelogRelease) : GoString :=
  match r.Version with
  | some v => 'v' :: v
  | none => []

/-- Modelled from the spec: go-changelog is not under `src/`.  This is its
method `Releases.Less(i, j)` for `x = r[i]` and `y = r[j]`, the order that
`sort.Sort` sorts by.  The spec has the releases "comparable/sortable by
version" and takes the last release after sorting, `t[len(t)-1]`, for "the
most recent": `x` is below `y` when its version has the lower precedence as
a semantic version, `semver.Compare("v"+x, "v"+y) < 0`. -/
def Releases.Less (x y : ChangelogRelease) : Bool :=
  decide (semver.Compare x.canonical y.canonical < 0)

namespace sort

/-- The inner loop of Go `insertionSort` for the element `x` that follows the
sorted part, which is given from its last element to its first: `x` is swapped
down while it is `Less` than the element before it. -/
def insertionSortInner (x : ChangelogRelease) : List ChangelogRelease → List ChangelogRelease
  | [] => [x]
  | y :: ys => if Releases.Less x y = true then y :: insertionSortInner x ys else x :: y :: ys

/-- The outer loop of Go `insertionSort`: `sorted` is the sorted part, from its
last element to its first, `rest` is what follows it. -/
def insertionSortLoop : List ChangelogRelease → List ChangelogRelease → List ChangelogRelease
  | sorted, [] => sorted.reverse
  | sorted, x :: rest => insertionSortLoop (insertionSortInner x sorted) rest

/-- Go `sort.Sort` on `changelog.Releases`: ascending in `Releases.Less`.  Go
sorts short slices with `insertionSort`, which is transcribed here; what is
proved of the release URL holds for every function that returns the releases
reordered and ascending (`releaseURL_sorted`, `releaseURL_top`). -/
def insertionSort (data : List ChangelogRelease) : List ChangelogRelease :=
  insertionSortLoop [] data

end sort

/-- Go `changelog.NewParser`. -/
def NewParser (filename : GoString) (w : World) : Option Error × World :=
  w.call (.NewParser filename)

/-- Go `Parser.Parse`: on success the content is `World.document`. -/
def Parse (w : World) : Option Error × World :=
  w.call .Parse

/-- Go `git.PlainOpen(".")`. -/
def PlainOpen (w : World) : Option Error × World :=
  w.call .PlainOpen

/-- Go `Repository.Worktree`. -/
def Worktree (w : World) : Option Error × World :=
  w.call .Worktree

/-- Go `http.NewRequest(http.MethodGet, url, nil)`. -/
def NewRequest (url : GoString) (w : World) : Option Error × World :=
  w.call (.NewRequest url)

/-- Go `client.Do(req)`: the response of the profile endpoint. -/
def Do (url authorization : GoString) (w : World) : Except Error Response × World :=
  match w.call (.Do url authorization) with
  | (some err, w) => (.error err, w)
  | (none, w) => (.ok w.response, w)

/-- Go `io.ReadAll(resp.Body)`. -/
def ReadAll (w : World) : Option Error × World :=
  w.call .ReadAll

/-- Go `Changelog.CreateReleaseFromUnreleasedWithURL`: the unreleased changes
become a release with the given version, date and URL. -/
def CreateReleaseFromUnreleasedWithURL (version date url : GoString) (w : World) :
    Option Error × World :=
  match w.call (.CreateReleaseFromUnreleasedWithURL version date url) with
  | (some err, w) => (some err, w)
  | (none, w) =>
    let r : ChangelogRelease :=
      { Version := some version, Date := some date, URL := some url,
        Changes := w.document.Unreleased }
    (none, { w with document :=
      { w.document with Unreleased := [], Releases := w.document.Releases ++ [r] } })

/-- Go `Changelog.SetUnreleasedURL`. -/
def SetUnreleasedURL (url : GoString) (w : World) : Option Error × World :=
  match w.call (.SetUnreleasedURL url) with
  | (some err, w) => (some err, w)
  | (none, w) => (none, { w with document := { w.document with UnreleasedURL := some url } })

/-- Go `Changelog.SaveToFile`. -/
def SaveToFile (filename : GoString) (w : World) : Option Error × World :=
  match w.call (.SaveToFile filename) with
  | (some err, w) => (some err, w)
  | (none, w) => (none, { w with saved := some (filename, w.document) })

/-- Go `Worktree.Add`. -/
def Add (filename : GoString) (w : World) : Option Error × World :=
  w.call (.Add filename)

/-- Go `Worktree.Commit`: a new commit, to which `HEAD` moves. -/
def Commit (message : GoString) (author committer : Signature) (w : World) :
    Except Error Hash × World :=
  match w.call (.Commit message author committer) with
  | (some err, w) => (.error err, w)
  | (none, w) => (.ok w.nextCommit, { w with repo := { w.repo with head := w.nextCommit } })

/-- Go `Repository.TagObjects`: the annotated tag objects of the object store. -/
def TagObjects (w : World) : Except Error (List Tag) × World :=
  match w.call .TagObjects with
  | (some err, w) => (.error err, w)
  | (none, w) => (.ok w.repo.objects, w)

/-- The iteration of `TagIter.ForEach` once the iterator works: the callback
runs on each tag in turn until it returns an error. -/
def forEachTag {σ : Type} (cb : Tag → σ → σ × Option Error) : List Tag → σ → σ × Option Error
  | [], s => (s, none)
  | t :: ts, s =>
    match cb t s with
    | (s, some err) => (s, some err)
    | (s, none) => forEachTag cb ts s

/-- Go `TagIter.ForEach`. -/
def ForEach {σ : Type} (tags : List Tag) (cb : Tag → σ → σ × Option Error) (s : σ)
    (w : World) : (σ × Option Error) × World :=
  match w.call .ForEach with
  | (some err, w) => ((s, some err), w)
  | (none, w) => (forEachTag cb tags s, w)

/-- Go `Repository.Head`. -/
def Head (w : World) : Except Error Hash × World :=
  match w.call .Head with
  | (some err, w) => (.error err, w)
  | (none, w) => (.ok w.repo.head, w)

/-- Whether the reference `refs/tags/<name>` exists. -/
def Repository.hasTag (r : Repository) (name : GoString) : Bool :=
  r.tags.any (fun p => p.1 == name)

/-- What the reference `refs/tags/<name>` names, if it exists. -/
def Repository.tagOf (r : Repository) (name : GoString) : Option TagTarget :=
  (r.tags.find? (fun p => p.1 == name)).map Prod.snd

/-- The repository with a new tag object and a reference to it. -/
def Repository.addTag (r : Repository) (t : Tag) : Repository :=
  { r with objects := r.objects ++ [t], tags := r.tags ++ [(t.Name, TagTarget.tag t)] }

/-- The repository without the reference `refs/tags/<name>`; tag objects stay
in the object store. -/
def Repository.removeTag (r : Repository) (name : GoString) : Repository :=
  { r with tags := r.tags.filter (fun p => p.1 != name) }

/-- Go `Repository.CreateTag` with options: `ErrTagExists` when the reference
exists, otherwise a new tag object and a reference to it. -/
def CreateTag (name : GoString) (hash : Hash) (opts : CreateTagOptions) (w : World) :
    Option Error × World :=
  match w.call (.CreateTag name hash opts) with
  | (some err, w) => (some err, w)
  | (none, w) =>
    if w.repo.hasTag name = true then (some Error.ErrTagExists, w)
    else
      let t : Tag := { Name := name, Target := hash, Message := opts.Message, Tagger := opts.Tagger }
      (none, { w with repo := w.repo.addTag t })

/-- Go `Repository.DeleteTag`: removes the reference; `ErrTagNotFound` when absent. -/
def DeleteTag (name : GoString) (w : World) : Option Error × World :=
  match w.call (.DeleteTag name) with
  | (some err, w) => (some err, w)
  | (none, w) =>
    if w.repo.hasTag name = true then (none, { w with repo := w.repo.removeTag name })
    else (some Error.ErrTagNotFound, w)

/-- Go `Repository.Push`. -/
def Push (o : PushOptions) (w : World) : Option Error × World :=
  w.call (.Push o)

/-- Function `output(k, v)` of `main.go`: the shell command appending `k=v` to `$GITHUB_OUTPUT`. -/
def output (k v : GoString) (w : World) : Option Error × World :=
  w.call (.Output k v)

/-- Go `Hash.String`: the digits of the hash. -/
def Hash.String (h : Hash) : GoString := Nat.toDigits 16 h

/-! ## app.go -/

/-- The fixed committer of `newGitRepo`, stamped with the time `tm`. -/
def botSignature (tm : Nat) : Signature :=
  { Name := "github-actions[bot]".toList,
    Email := "github-actions[bot]@users.noreply.github.com".toList,
    When := tm }

/-- Function `newGitRepo` of `app.go`. -/
def newGitRepo (w : World) : Except Error gitRepo × World :=
  match PlainOpen w with
  | (some err, w) => (.error (wrap "error opening repository: %s" [] err), w)
  | (none, w) =>
    match Worktree w with
    | (some err, w) => (.error (wrap "error identifying worktree: %s" [] err), w)
    | (none, w) =>
      let tm := w.clock
      let committer := botSignature tm
      let author : Signature := { Name := Getenv w "GITHUB_ACTOR", Email := [], When := tm }
      let auth : BasicAuth := { Username := committer.Name, Password := Getenv w "GITHUB_TOKEN" }
      if author.Name = [] then
        (.ok { committer := committer, author := committer, auth := auth }, w)
      else
        let url := "https://api.github.com/users/".toList ++ author.Name
        match NewRequest url w with
        | (some err, w) =>
          (.error (wrap "error creating a api request to fetch author information: %s" [] err), w)
        | (none, w) =>
          match Do url ("Bearer ".toList ++ Getenv w "GITHUB_TOKEN") w with
          | (.error err, w) => (.error (wrap "error fetching author information: %s" [] err), w)
          | (.ok resp, w) =>
            if resp.StatusCode ≠ 200 then
              (.error (Error.errorf "error contacting github api: http code %v"
                [Nat.toDigits 10 resp.StatusCode]), w)
            else
              match ReadAll w with
              | (some err, w) => (.error (wrap "error reading response body: %s" [] err), w)
              | (none, w) =>
                match resp.Body with
                | none =>
                  (.error (wrap "error decoding response body: %s" [] (Error.external 0)), w)
                | some email =>
                  let author := if email ≠ [] then { author with Email := email } else author
                  (.ok { committer := committer, author := author, auth := auth }, w)

/-- Function `new` of `app.go`. -/
def new (w : World) : Except Error app × World :=
  let v := Getenv w "VERSION"
  if semver.IsValid v = false then
    (.error (Error.errorf "invalid semantic version (make sure to add a 'v' prefix: vX.X.X)" []), w)
  else
    let refs := [v]
    match strconv.ParseBool (Getenv w "UPDATE_TAGS") with
    | .error err =>
      (.error (wrap "error parsing UPDATE_TAGS environmental variable: %s" [] err), w)
    | .ok u =>
      let refs := if u = true then refs ++ [semver.Major v, semver.MajorMinor v] else refs
      let f := if Getenv w "CHANGELOG_FILE" ≠ [] then Getenv w "CHANGELOG_FILE"
               else "CHANGELOG.md".toList
      match NewParser f w with
      | (some err, w) => (.error (wrap "error initializing changelog parser: %s" [] err), w)
      | (none, w) =>
        match Parse w with
        | (some err, w) => (.error (wrap "error parsing changelog: %s" [] err), w)
        | (none, w) =>
          match newGitRepo w with
          | (.error err, w) => (.error (wrap "git configuration error: %s" [] err), w)
          | (.ok g, w) =>
            (.ok { version := v, refs := refs, changelog := { filename := f }, git := g }, w)

/-- The release URL computed at the start of `updateChangelog` (lines 176-185),
with the world in which `sort.Sort` has reordered the releases.  `sortSort` is
`sort.Sort` on `changelog.Releases`. -/
def releaseURL (sortSort : List ChangelogRelease → List ChangelogRelease) (a : app)
    (w : World) : GoString × World :=
  let url := "https://github.com/".toList ++ Getenv w "GITHUB_REPOSITORY"
  let releaseURL := url ++ "/releases/tag/".toList ++ a.version
  if w.document.Releases.length > 0 then
    let t := sortSort w.document.Releases
    let w := { w with document := { w.document with Releases := t } }
    match t.getLast? with
    | some r =>
      match r.Version with
      | some p => (url ++ "/compare/v".toList ++ p ++ "...".toList ++ a.version, w)
      | none => (releaseURL, w)
    | none => (releaseURL, w)
  else (releaseURL, w)

/-- Method `app.updateChangelog`. -/
def updateChangelog (sortSort : List ChangelogRelease → List ChangelogRelease) (a : app)
    (w : World) : Option Error × World :=
  let url := "https://github.com/".toList ++ Getenv w "GITHUB_REPOSITORY"
  match releaseURL sortSort a w with
  | (releaseURL, w) =>
    match CreateReleaseFromUnreleasedWithURL (strings.TrimPrefix a.version "v".toList) w.today
        releaseURL w with
    | (some err, w) => (some (wrap "error creating release from an unreleased: %s" [] err), w)
    | (none, w) =>
      match SetUnreleasedURL (url ++ "/compare/".toList ++ a.version ++ "...HEAD".toList) w with
      | (some err, w) => (some (wrap "error updating unreleased url: %s" [] err), w)
      | (none, w) =>
        match SaveToFile a.changelog.filename w with
        | (some err, w) => (some (wrap "error saving changelog to file: %s" [] err), w)
        | (none, w) => (none, w)

/-- Method `app.commit`. -/
def commit (a : app) (w : World) : Except Error Hash × World :=
  match Add a.changelog.filename w with
  | (some err, w) => (.error (wrap "error staging %s file: %s" [a.changelog.filename] err), w)
  | (none, w) =>
    match Commit (strings.TrimPrefix a.version "v".toList) a.git.author a.git.committer w with
    | (.error err, w) => (.error (wrap "error committing changes: %s" [] err), w)
    | (.ok c, w) => (.ok c, w)

/-- Method `app.checkVersionTagExistence`. -/
def checkVersionTagExistence (a : app) (w : World) : Except Error Bool × World :=
  match TagObjects w with
  | (.error err, w) => (.error (wrap "error fetching tags: %s" [] err), w)
  | (.ok tags, w) =>
    match ForEach tags
        (fun t res => if t.Name = a.version then (true, some Error.ErrTagExists) else (res, none))
        false w with
    | ((res, some err), w) =>
      if err ≠ Error.ErrTagExists then (.error (wrap "tags iterator error: %s" [] err), w)
      else (.ok res, w)
    | ((res, none), w) => (.ok res, w)

/-- The body of the `for _, v := range a.refs` loop of `app.tag`, `h` being
the head: `none` stands for reaching the end of the body or `continue`, an
error for `return`. -/
def tagStep (a : app) (h : Hash) (v : GoString) (w : World) : Option Error × World :=
  match CreateTag v h { Message := v, Tagger := a.git.committer } w with
  | (none, w) => (none, w)
  | (some err, w) =>
    if v ≠ a.version ∧ err = Error.ErrTagExists then
      match DeleteTag v w with
      | (some err, w) => (some (wrap "error deleting tag: %s" [] err), w)
      | (none, w) =>
        match CreateTag v h { Message := v, Tagger := a.git.committer } w with
        | (some err, w) => (some (wrap "error tagging a commit (%s): %s" [v] err), w)
        | (none, w) => (none, w)
    else (some (wrap "error tagging a commit (%s): %s" [a.version] err), w)

/-- The `for _, v := range a.refs` loop of `app.tag`. -/
def tagLoop (a : app) (h : Hash) : List GoString → World → Option Error × World
  | [], w => (none, w)
  | v :: vs, w =>
    match tagStep a h v w with
    | (some err, w) => (some err, w)
    | (none, w) => tagLoop a h vs w

/-- Method `app.tag`; the commit argument is not used by the body. -/
def tag (a : app) (_commit : Hash) (w : World) : Option Error × World :=
  match checkVersionTagExistence a w with
  | (.error err, w) => (some (wrap "error validating tag existence: %s" [] err), w)
  | (.ok true, w) => (some Error.ErrTagExists, w)
  | (.ok false, w) =>
    match Head w with
    | (.error err, w) => (some (wrap "error identifying head reference: %s" [] err), w)
    | (.ok h, w) => tagLoop a h a.refs w

/-- The ref-spec `refs/tags/<v>:refs/tags/<v>`. -/
def tagRefSpec (v : GoString) : GoString :=
  "refs/tags/".toList ++ v ++ ":refs/tags/".toList ++ v

/-- The `for _, v := range a.refs` loop of `app.push`. -/
def pushLoop (a : app) : List GoString → World → Option Error × World
  | [], w => (none, w)
  | v :: vs, w =>
    let o : PushOptions := { RefSpecs := [tagRefSpec v], Auth := a.git.auth, Force := false }
    let o := if v ≠ a.version then { o with Force := true } else o
    match Push o w with
    | (some err, w) => (some (wrap "error pushing the tag (%s): %s" [v] err), w)
    | (none, w) => pushLoop a vs w

/-- Method `app.push`. -/
def push (a : app) (w : World) : Option Error × World :=
  match Push { RefSpecs := [], Auth := a.git.auth, Force := false } w with
  | (some err, w) => (some (wrap "error pushing the commit: %s" [] err), w)
  | (none, w) => pushLoop a a.refs w

/-! ## main.go -/

/-- Function `fatal` of `main.go`: print the error and exit with status 1. -/
def fatal (err : Error) (w : World) : Nat × World :=
  (1, w.print (.PrintError err))

/-- The loop of `init` over the required variables; `some` is the exit it causes. -/
def initLoop : List String → World → Option (Nat × World)
  | [], _ => none
  | v :: vs, w =>
    if Getenv w v = [] then
      some (fatal (Error.errorf "missing required environmental variable: %s" [v.toList]) w)
    else initLoop vs w

/-- The function `init` of `main.go`. -/
def init (w : World) : Option (Nat × World) :=
  initLoop ["GITHUB_REPOSITORY", "GITHUB_TOKEN", "GITHUB_ACTOR", "VERSION"] w

/-- The `for k, v := range o` loop of `main`. -/
def outputLoop : List (GoString × GoString) → World → Option Error × World
  | [], w => (none, w)
  | (k, v) :: rest, w =>
    let w := w.print (.Print "- creating output: %s=%s\n" [k, v])
    match output k v w with
    | (some err, w) => (some (wrap "error defining output (%s=%s): %s" [k, v] err), w)
    | (none, w) => outputLoop rest w

/-- Function `main` of `main.go`: the exit status and the final world.  The iteration order of the
output map is the world's `hashFirst`. -/
def main (sortSort : List ChangelogRelease → List ChangelogRelease) (w : World) : Nat × World :=
  let w := w.print (.Print "- initializing action" [])
  match new w with
  | (.error err, w) => fatal (wrap "initialization error: %s" [] err) w
  | (.ok a, w) =>
    let w := w.print (.Print "- updating changelog file" [])
    match updateChangelog sortSort a w with
    | (some err, w) => fatal (wrap "error updating changelog file: %s" [] err) w
    | (none, w) =>
      let w := w.print (.Print "- committing changes" [])
      match commit a w with
      | (.error err, w) => fatal (wrap "error committing changes: %s" [] err) w
      | (.ok c, w) =>
        let w := w.print (.Print "- creating tags" [])
        match tag a c w with
        | (some err, w) => fatal (wrap "error creating tags: %s" [] err) w
        | (none, w) =>
          let w := w.print (.Print "- pushing changes" [])
          match push a w with
          | (some err, w) => fatal (wrap "error pushing changes: %s" [] err) w
          | (none, w) =>
            let o := if w.hashFirst = true
              then [("hash".toList, Hash.String c), ("tag".toList, a.version)]
              else [("tag".toList, a.version), ("hash".toList, Hash.String c)]
            match outputLoop o w with
            | (some err, w) => fatal err w
            | (none, w) => (0, w.print (.Print "- success" []))

/-- A whole process: `init`, then `main`. -/
def run (sortSort : List ChangelogRelease → List ChangelogRelease) (w : World) : Nat × World :=
  match init w with
  | some r => r
  | none => main sortSort w

/-! ## Concrete worlds -/

/-- A repository without tags whose head is commit 1. -/
def emptyRepository : Repository := { objects := [], tags := [], head := 1 }

/-- A world with the given version, alias switch, actor, profile answer and
repository; the changelog has unreleased changes and no release, and no
collaborator call is scheduled to fail. -/
def sampleWorld (version updateTags actor : String) (response : Response)
    (repo : Repository) : World :=
  { env := [("GITHUB_REPOSITORY".toList, "octo/demo".toList),
            ("GITHUB_TOKEN".toList, "secret".toList),
            ("GITHUB_ACTOR".toList, actor.toList),
            ("VERSION".toList, version.toList),
            ("UPDATE_TAGS".toList, updateTags.toList)],
    clock := 7,
    today := "2024-05-01".toList,
    response := response,
    document := { UnreleasedURL := none, Unreleased := ["- Added: a feature".toList],
                  Releases := [] },
    saved := none,
    repo := repo,
    nextCommit := 2,
    hashFirst := true,
    faults := [],
    trace := [] }

/-- A profile answer with status 200 and the given email. -/
def profile (email : String) : Response := { StatusCode := 200, Body := some email.toList }

/-- The `app` that `new` builds in a sample world for the given version and
references. -/
def sampleApp (version : String) (refs : List String) : app :=
  { version := version.toList,
    refs := refs.map String.toList,
    changelog := { filename := "CHANGELOG.md".toList },
    git := { committer := botSignature 7,
             author := { Name := "octocat".toList, Email := [], When := 7 },
             auth := { Username := "github-actions[bot]".toList, Password := "secret".toList } } }

/-- The annotated tag `v1` of an earlier release, at commit 0. -/
def oldV1 : Tag :=
  { Name := "v1".toList, Target := 0, Message := "v1".toList, Tagger := botSignature 3 }

/-- A repository whose head is commit 2 and whose only tag is the alias `v1`
of an earlier release. -/
def aliasRepository : Repository :=
  { objects := [oldV1], tags := [("v1".toList, TagTarget.tag oldV1)], head := 2 }

/-- The annotated tag of an earlier release of the given version, at commit 1. -/
def releasedTag (version : String) : Tag :=
  { Name := version.toList, Target := 1, Message := version.toList, Tagger := botSignature 3 }

/-- A repository whose head is commit 1 and which has the annotated tag of the
given version. -/
def taggedRepository (version : String) : Repository :=
  { objects := [releasedTag version],
    tags := [(version.toList, TagTarget.tag (releasedTag version))],
    head := 1 }

/-- A repository whose head is commit 1 and whose only tag is a lightweight
one of the given version: a reference to commit 1 without a tag object. -/
def lightweightRepository (version : String) : Repository :=
  { objects := [], tags := [(version.toList, TagTarget.commit 1)], head := 1 }

/-- The sample world at the tag stage of a run for `v1.3.2` with aliases, with
the given repository and fault schedule. -/
def tagWorld (repo : Repository) (faults : List (Option Nat)) : World :=
  { sampleWorld "v1.3.2" "true" "octocat" (profile "") repo with faults := faults }

/-- The tag object that `app.tag` creates for the reference `v` at the head `h`. -/
def newTag (a : app) (h : Hash) (v : GoString) : Tag :=
  { Name := v, Target := h, Message := v, Tagger := a.git.committer }

/-- The `CreateTag` call that `app.tag` issues for the reference `v`. -/
def createEvent (a : app) (h : Hash) (v : GoString) : Event :=
  Event.CreateTag v h { Message := v, Tagger := a.git.committer }

/-- The failures of one iteration that the specification names, for the
reference `r` in the world `w`: creating the exact-version tag fails for any
reason; creating an alias fails for a reason other than `ErrTagExists`;
deleting the existing alias fails; the retry after the deletion fails. -/
def stepFails (a : app) (h : Hash) (r : GoString) (w : World) : Prop :=
  (r = a.version ∧
    ∃ err, (CreateTag r h { Message := r, Tagger := a.git.committer } w).1 = some err) ∨
  (r ≠ a.version ∧
    ∃ err, err ≠ Error.ErrTagExists ∧
      (CreateTag r h { Message := r, Tagger := a.git.committer } w).1 = some err) ∨
  (r ≠ a.version ∧
    (CreateTag r h { Message := r, Tagger := a.git.committer } w).1 = some Error.ErrTagExists ∧
    ∃ err, (DeleteTag r (CreateTag r h { Message := r, Tagger := a.git.committer } w).2).1
      = some err) ∨
  (r ≠ a.version ∧
    (CreateTag r h { Message := r, Tagger := a.git.committer } w).1 = some Error.ErrTagExists ∧
    (DeleteTag r (CreateTag r h { Message := r, Tagger := a.git.committer } w).2).1 = none ∧
    ∃ err, (CreateTag r h { Message := r, Tagger := a.git.committer }
      (DeleteTag r (CreateTag r h { Message := r, Tagger := a.git.committer } w).2).2).1
        = some err)

/-- The collaborator calls of one iteration of the tag loop for the reference
`v` when nothing fails: one `CreateTag`, or `CreateTag`, `DeleteTag`,
`CreateTag` when the reference exists. -/
def stepEvents (a : app) (h : Hash) (r : Repository) (v : GoString) : List Event :=
  if r.hasTag v = true then [createEvent a h v, Event.DeleteTag v, createEvent a h v]
  else [createEvent a h v]

/-- The push that `app.push` issues for the reference `r`. -/
def tagPush (a : app) (r : GoString) : PushOptions :=
  { RefSpecs := [tagRefSpec r], Auth := a.git.auth, Force := decide (r ≠ a.version) }

/-- The events that reach the outside: pushes to the remote and outputs. -/
def isPublish : Event → Bool
  | Event.Push _ => true
  | Event.Output _ _ => true
  | _ => false

/-- The pushes and outputs of a trace, in order. -/
def publishes (t : List Event) : List Event := t.filter isPublish

/-- From `w` to `w'` nothing was pushed or output. -/
def Silent (w w' : World) : Prop := publishes w'.trace = publishes w.trace

/-- From `w` to `w'` nothing was pushed or output, and the tag objects, the tag
references and the environment are the same. -/
def Quiet (w w' : World) : Prop :=
  Silent w w' ∧ w'.repo.objects = w.repo.objects ∧ w'.repo.tags = w.repo.tags ∧ w'.env = w.env

/-! ## Three-way comparisons -/

/-- The laws that make a three-way comparison a total order: zero exactly on
equal arguments, opposite results for swapped arguments, and transitivity of
"below". -/
structure OrderLaws {α : Type} (c : α → α → Int) : Prop where
  eq_zero : ∀ x y, c x y = 0 ↔ x = y
  swap : ∀ x y, c y x = - c x y
  trans : ∀ x y z, c x y < 0 → c y z < 0 → c x z < 0

/-- The first comparison decides unless it is zero, then the second does. -/
def lexCmp {α β : Type} (c1 : α → α → Int) (c2 : β → β → Int) (x y : α × β) : Int :=
  if c1 x.1 y.1 ≠ 0 then c1 x.1 y.1 else c2 x.2 y.2

/-- Lists compared element by element; a proper prefix is below. -/
def listCmp {α : Type} (c : α → α → Int) : List α → List α → Int
  | [], [] => 0
  | [], _ :: _ => -1
  | _ :: _, [] => 1
  | a :: x, b :: y => if c a b ≠ 0 then c a b else listCmp c x y

/-- The comparison extended by `none` above everything. -/
def topCmp {α : Type} (c : α → α → Int) : Option α → Option α → Int
  | none, none => 0
  | none, some _ => 1
  | some _, none => -1
  | some a, some b => c a b

/-- The comparison extended by `none` below everything. -/
def botCmp {α : Type} (c : α → α → Int) : Option α → Option α → Int
  | none, none => 0
  | none, some _ => -1
  | some _, none => 1
  | some a, some b => c a b

/-- The comparison of two pre-release identifiers in `semver.comparePrerelease`. -/
def identCmp (dx dy : GoString) : Int :=
  if dx = dy then 0 else semver.compareIdent dx dy

/-- The dot-separated identifiers of a string. -/
def identifiers : GoString → List GoString
  | [] => [[]]
  | c :: s =>
    if c = '.' then [] :: identifiers s
    else
      match identifiers s with
      | [] => [[c]]
      | d :: ds => (c :: d) :: ds

/-- The identifiers of what `semver.comparePrerelease` has still to read: the
string without its leading separator. -/
def restIdentifiers : GoString → List GoString
  | [] => []
  | _ :: b => identifiers b

/-- The identifiers of a pre-release string, `none` for the empty one. -/
def preKey : GoString → Option (List GoString)
  | [] => none
  | _ :: b => some (identifiers b)

/-- What `semver.Compare` compares of a version: nothing when it is invalid,
else major, minor, patch and the pre-release identifiers. -/
def versionKey (v : GoString) :
    Option (GoString × GoString × GoString × Option (List GoString)) :=
  (semver.parse v).map (fun p => (p.major, p.minor, p.patch, preKey p.prerelease))

/-- The order of semantic versions on their keys. -/
def keyCmp : Option (GoString × GoString × GoString × Option (List GoString)) →
    Option (GoString × GoString × GoString × Option (List GoString)) → Int :=
  botCmp (lexCmp semver.compareInt (lexCmp semver.compareInt
    (lexCmp semver.compareInt (topCmp (listCmp identCmp)))))

/-! ## Version shapes, as the specification words them -/

/-- A non-empty run of decimal digits. -/
def isNumber (s : GoString) : Prop := s ≠ [] ∧ ∀ c ∈ s, semver.isDigit c = true

/-- The shorthand `vX`. -/
def formVX (v : GoString) : Prop := ∃ X, isNumber X ∧ v = 'v' :: X

/-- The shorthand `vX.Y`. -/
def formVXY (v : GoString) : Prop := ∃ X Y, isNumber X ∧ isNumber Y ∧ v = 'v' :: (X ++ '.' :: Y)

/-- The form `vX.Y.Z`, possibly followed by a pre-release or build suffix. -/
def formVXYZ (v : GoString) : Prop :=
  ∃ X Y Z suffix, isNumber X ∧ isNumber Y ∧ isNumber Z ∧
    v = 'v' :: (X ++ '.' :: (Y ++ '.' :: (Z ++ suffix)))

/-! ## Lemmas on semver -/

theorem isDigit_ne_dot {c : Char} (h : semver.isDigit c = true) : c ≠ '.' := by
  rintro rfl
  revert h
  decide

theorem isNumber_dot_not_mem {s : GoString} (h : isNumber s) : '.' ∉ s := by
  intro hm
  exact isDigit_ne_dot (h.2 _ hm) rfl

theorem parseInt_some {v t rest : GoString} (h : semver.parseInt v = some (t, rest)) :
    v = t ++ rest ∧ isNumber t := by
  cases v with
  | nil => simp [semver.parseInt] at h
  | cons c cs =>
    simp only [semver.parseInt] at h
    split_ifs at h with h1 h2
    simp only [Option.some.injEq, Prod.mk.injEq] at h
    obtain ⟨rfl, rfl⟩ := h
    refine ⟨by simp [List.takeWhile_append_dropWhile], by simp, ?_⟩
    intro x hx
    rcases List.mem_cons.mp hx with rfl | hx
    · simp only [not_or, not_lt] at h1
      simp [semver.isDigit, h1.1, h1.2]
    · exact List.mem_takeWhile_imp hx

/-- The three shapes of a string accepted by `semver.parse`. -/
theorem parse_shape {v : GoString} {pv : semver.parsed} (h : semver.parse v = some pv) :
    isNumber pv.major ∧ isNumber pv.minor ∧
    (v = 'v' :: pv.major ∧ pv.minor = ['0'] ∨
     v = 'v' :: (pv.major ++ '.' :: pv.minor) ∨
     ∃ Z suffix, isNumber Z ∧ v = 'v' :: (pv.major ++ '.' :: (pv.minor ++ '.' :: (Z ++ suffix)))) := by
  cases v with
  | nil => simp [semver.parse] at h
  | cons c v1 =>
    simp only [semver.parse] at h
    split_ifs at h with hc
    simp only [ne_eq, not_not] at hc
    subst hc
    split at h
    · simp at h
    · rename_i major hint
      obtain ⟨hv1, hmaj⟩ := parseInt_some hint
      simp only [Option.some.injEq] at h
      subst h
      have h0 : isNumber ['0'] := ⟨by decide, by decide⟩
      exact ⟨hmaj, h0, Or.inl ⟨by simp [hv1], rfl⟩⟩
    · rename_i major d v3 hint
      obtain ⟨hv1, hmaj⟩ := parseInt_some hint
      split_ifs at h with hd
      simp only [ne_eq, not_not] at hd
      subst hd
      split at h
      · simp at h
      · rename_i minor hint2
        obtain ⟨hv3, hmin⟩ := parseInt_some hint2
        simp only [Option.some.injEq] at h
        subst h
        refine ⟨hmaj, hmin, Or.inr (Or.inl ?_)⟩
        simp [hv1, hv3]
      · rename_i minor e v5 hint2
        obtain ⟨hv3, hmin⟩ := parseInt_some hint2
        split_ifs at h with he
        simp only [ne_eq, not_not] at he
        subst he
        split at h
        · simp at h
        · rename_i patch v6 hint3
          obtain ⟨hv5, hpat⟩ := parseInt_some hint3
          split at h
          · simp at h
          · split at h
            · simp at h
            · split_ifs at h
              simp only [Option.some.injEq] at h
              subst h
              refine ⟨hmaj, hmin, Or.inr (Or.inr ⟨patch, v6, hpat, ?_⟩)⟩
              simp [hv1, hv3, hv5]

theorem take_one_add (c : Char) (a b : GoString) :
    (c :: (a ++ b)).take (1 + a.length) = c :: a := by
  rw [Nat.add_comm, List.take_succ_cons, List.take_left']
  rfl

theorem get?_length_append (a b : GoString) (c : Char) :
    (a ++ c :: b).get? a.length = some c := by
  induction a with
  | nil => rfl
  | cons x xs ih => simpa using ih

theorem get?_one_add (x c : Char) (a b : GoString) :
    (x :: (a ++ c :: b)).get? (1 + a.length) = some c := by
  rw [Nat.add_comm, List.get?_cons_succ]
  exact get?_length_append a b c

theorem Major_eq {v : GoString} {pv : semver.parsed} (h : semver.parse v = some pv) :
    semver.Major v = 'v' :: pv.major := by
  obtain ⟨_, _, hs⟩ := parse_shape h
  simp only [semver.Major, h]
  rcases hs with ⟨hv, _⟩ | hv | ⟨Z, suffix, _, hv⟩
  · rw [hv]
    simpa using take_one_add 'v' pv.major []
  · rw [hv]
    exact take_one_add _ _ _
  · rw [hv]
    exact take_one_add _ _ _

theorem MajorMinor_eq {v : GoString} {pv : semver.parsed} (h : semver.parse v = some pv) :
    semver.MajorMinor v = 'v' :: (pv.major ++ '.' :: pv.minor) := by
  obtain ⟨_, _, hs⟩ := parse_shape h
  simp only [semver.MajorMinor, h]
  rcases hs with ⟨hv, hm⟩ | hv | ⟨Z, suffix, _, hv⟩
  · have hlen : v.length = 1 + pv.major.length := by rw [hv]; simp [Nat.add_comm]
    have htake : v.take (1 + pv.major.length) = v := by
      rw [← hlen]; exact List.take_length v
    rw [if_neg (by intro hc; have := hc.1; omega), htake]
    conv_lhs => rw [hv]
    simp
  · have hj : (1 + pv.major.length + 1 + pv.minor.length) = v.length := by
      rw [hv]; simp; omega
    have hget : v.get? (1 + pv.major.length) = some '.' := by
      rw [hv]; exact get?_one_add _ _ _ _
    have hdrop : (v.drop (1 + pv.major.length + 1)).take
        (1 + pv.major.length + 1 + pv.minor.length - (1 + pv.major.length + 1)) = pv.minor := by
      have : 1 + pv.major.length + 1 = pv.major.length + 1 + 1 := by omega
      rw [this]
      conv_lhs => rw [hv]
      simp
    rw [if_pos ⟨by omega, hget, hdrop⟩, hj, List.take_length]
    exact hv
  · have hj : (1 + pv.major.length + 1 + pv.minor.length) ≤ v.length := by
      rw [hv]; simp; omega
    have hget : v.get? (1 + pv.major.length) = some '.' := by
      rw [hv]; exact get?_one_add _ _ _ _
    have hdrop : (v.drop (1 + pv.major.length + 1)).take
        (1 + pv.major.length + 1 + pv.minor.length - (1 + pv.major.length + 1)) = pv.minor := by
      have : 1 + pv.major.length + 1 = pv.major.length + 1 + 1 := by omega
      rw [this]
      conv_lhs => rw [hv]
      simp
    rw [if_pos ⟨hj, hget, hdrop⟩]
    have h2 : 1 + pv.major.length + 1 + pv.minor.length
        = 1 + (pv.major ++ '.' :: pv.minor).length := by simp; omega
    rw [h2, hv]
    have := take_one_add 'v' (pv.major ++ '.' :: pv.minor) ('.' :: (Z ++ suffix))
    simpa using this

theorem formVXYZ_iff {v : GoString} {pv : semver.parsed} (h : semver.parse v = some pv) :
    formVXYZ v ↔
      ∃ Z suffix, isNumber Z ∧ v = 'v' :: (pv.major ++ '.' :: (pv.minor ++ '.' :: (Z ++ suffix))) := by
  obtain ⟨hmaj, hmin, hs⟩ := parse_shape h
  constructor
  · rintro ⟨X, Y, Z, suffix, hX, hY, hZ, hv⟩
    rcases hs with ⟨hv2, _⟩ | hv2 | hv2
    · exfalso
      rw [hv] at hv2
      simp only [List.cons.injEq, true_and] at hv2
      exact isNumber_dot_not_mem hmaj (by rw [← hv2]; simp)
    · exfalso
      rw [hv] at hv2
      simp only [List.cons.injEq, true_and] at hv2
      have := (List.append_cons_inj_of_not_mem (isNumber_dot_not_mem hmaj)
        (isNumber_dot_not_mem hmin)).mp hv2.symm
      exact isNumber_dot_not_mem hmin (by rw [this.2.2]; simp)
    · exact hv2
  · rintro ⟨Z, suffix, hZ, hv⟩
    exact ⟨pv.major, pv.minor, Z, suffix, hmaj, hmin, hZ, hv⟩

/-- What `new` puts into the `app` it returns. -/
theorem new_ok {w w' : World} {a : app} (h : new w = (.ok a, w')) :
    a.version = Getenv w "VERSION" ∧ semver.IsValid a.version = true ∧
    ∃ u, strconv.ParseBool (Getenv w "UPDATE_TAGS") = .ok u ∧
      a.refs = (if u = true
        then [a.version] ++ [semver.Major a.version, semver.MajorMinor a.version]
        else [a.version]) := by
  simp only [new] at h
  split at h
  · simp at h
  rename_i hv
  split at h
  · simp at h
  · rename_i u hu
    split at h
    · simp at h
    · split at h
      · simp at h
      · split at h
        · simp at h
        · simp only [Prod.mk.injEq, Except.ok.injEq] at h
          obtain ⟨rfl, _⟩ := h
          simp only [Bool.not_eq_false] at hv
          exact ⟨rfl, hv, u, hu, rfl⟩

/-! ## C4: the Version Reference Set built by `new` -/

/-- C4, as stated, fails: for the valid shorthand version `v1` with aliasing
enabled, `new` builds the three references `v1`, `v1`, `v1.0`, neither a single
entry nor three distinct ones. -/
theorem new_refs_shorthand_counterexample :
    ∃ a w', new (sampleWorld "v1" "true" "octocat" (profile "") emptyRepository) = (.ok a, w') ∧
      ¬ formVXYZ a.version ∧
      a.refs = ["v1".toList, "v1".toList, "v1.0".toList] ∧
      a.refs.length ≠ 1 ∧ ¬ a.refs.Nodup := by
  refine ⟨_, _, rfl, ?_, by decide, by decide, by decide⟩
  intro hf
  have hp : semver.parse "v1".toList = some
      { major := ['1'], minor := ['0'], patch := ['0'], short := ".0.0".toList,
        prerelease := [], build := [] } := by decide
  obtain ⟨Z, suffix, _, hv⟩ := (formVXYZ_iff hp).mp hf
  simp at hv

/-- The references of an `app` returned by `new`, by the shape of its version. -/
theorem new_refs_shape (w w' : World) (a : app) (u : Bool) (h : new w = (.ok a, w'))
    (hu : strconv.ParseBool (Getenv w "UPDATE_TAGS") = .ok u) :
    a.version = Getenv w "VERSION" ∧ semver.IsValid a.version = true ∧ a.version ∈ a.refs ∧
    (u = false → a.refs = [a.version]) ∧
    (u = true →
      a.refs = [a.version, semver.Major a.version, semver.MajorMinor a.version] ∧
      (formVXYZ a.version → a.refs.Nodup) ∧
      (¬ formVXYZ a.version →
        (formVX a.version ∨ formVXY a.version) ∧ a.refs.count a.version = 2)) := by
  obtain ⟨hver, hvalid, u', hu', hrefs⟩ := new_ok h
  obtain rfl : u' = u := by
    rw [hu] at hu'; exact (Except.ok.inj hu').symm
  refine ⟨hver, hvalid, ?_, ?_, ?_⟩
  · rw [hrefs]; split_ifs <;> simp
  · intro hf; rw [hrefs]; simp [hf]
  · intro ht
    have hrefs' : a.refs = [a.version, semver.Major a.version, semver.MajorMinor a.version] := by
      rw [hrefs]; simp [ht]
    refine ⟨hrefs', ?_⟩
    obtain ⟨pv, hp⟩ := Option.isSome_iff_exists.mp hvalid
    obtain ⟨hmaj, hmin, hs⟩ := parse_shape hp
    have hM := Major_eq hp
    have hMM := MajorMinor_eq hp
    have hlen1 : (semver.Major a.version).length = 1 + pv.major.length := by
      rw [hM]; simp [Nat.add_comm]
    have hlen2 : (semver.MajorMinor a.version).length = 2 + pv.major.length + pv.minor.length := by
      rw [hMM]; simp; omega
    have hne12 : semver.Major a.version ≠ semver.MajorMinor a.version := by
      intro he; have := congrArg List.length he; omega
    rcases hs with ⟨hv, _⟩ | hv | ⟨Z, suffix, hZ, hv⟩
    · have hnf : ¬ formVXYZ a.version := by
        intro hf
        obtain ⟨Z, suffix, _, hv2⟩ := (formVXYZ_iff hp).mp hf
        have := congrArg List.length (hv.symm.trans hv2)
        simp only [List.length_cons, List.length_append] at this
        omega
      refine ⟨fun hf => absurd hf hnf, fun _ => ⟨Or.inl ⟨pv.major, hmaj, hv⟩, ?_⟩⟩
      have h1 : semver.Major a.version = a.version := hM.trans hv.symm
      have h2 : semver.MajorMinor a.version ≠ a.version := fun he => hne12 (h1.trans he.symm)
      rw [hrefs', h1]
      simp [List.count_cons, h2]
    · have hnf : ¬ formVXYZ a.version := by
        intro hf
        obtain ⟨Z, suffix, _, hv2⟩ := (formVXYZ_iff hp).mp hf
        have := congrArg List.length (hv.symm.trans hv2)
        simp only [List.length_cons, List.length_append] at this
        omega
      refine ⟨fun hf => absurd hf hnf, fun _ => ⟨Or.inr ⟨pv.major, pv.minor, hmaj, hmin, hv⟩, ?_⟩⟩
      have h2 : semver.MajorMinor a.version = a.version := hMM.trans hv.symm
      have h1 : semver.Major a.version ≠ a.version := fun he => hne12 (he.trans h2.symm)
      rw [hrefs', h2]
      simp [List.count_cons, h1]
    · have hf : formVXYZ a.version := (formVXYZ_iff hp).mpr ⟨Z, suffix, hZ, hv⟩
      refine ⟨fun _ => ?_, fun hnf => absurd hf hnf⟩
      have hlen3 : a.version.length ≥ 3 + pv.major.length + pv.minor.length + Z.length := by
        have := congrArg List.length hv
        simp only [List.length_cons, List.length_append] at this
        omega
      have hZpos : 0 < Z.length := List.length_pos.mpr hZ.1
      have h1 : a.version ≠ semver.Major a.version := by
        intro he; have := congrArg List.length he; omega
      have h2 : a.version ≠ semver.MajorMinor a.version := by
        intro he; have := congrArg List.length he; omega
      rw [hrefs']
      simp [h1, h2, hne12]

/-- C4 (amended): an `app` returned by `new` carries the valid version of the
environment, and its references contain that version.  With aliasing disabled
there is exactly one reference.  With aliasing enabled there are exactly three,
the version, its major alias and its major.minor alias: pairwise distinct when
the version has the form `vX.Y.Z`, and otherwise (shorthand `vX` or `vX.Y`)
naming the version itself twice. -/
theorem new_refs (w w' : World) (a : app) (u : Bool) (h : new w = (.ok a, w'))
    (hu : strconv.ParseBool (Getenv w "UPDATE_TAGS") = .ok u) :
    a.version = Getenv w "VERSION" ∧ semver.IsValid a.version = true ∧ a.version ∈ a.refs ∧
    (u = false → a.refs = [a.version]) ∧
    (u = true →
      a.refs = [a.version, semver.Major a.version, semver.MajorMinor a.version] ∧
      (formVXYZ a.version → a.refs.Nodup) ∧
      (¬ formVXYZ a.version →
        (formVX a.version ∨ formVXY a.version) ∧ a.refs.count a.version = 2)) :=
  new_refs_shape w w' a u h hu

/-- C4 (amended), witness: `v1.3.2` with aliasing enabled. -/
theorem new_refs_witness :
    ∃ a w', new (sampleWorld "v1.3.2" "true" "octocat" (profile "") emptyRepository) = (.ok a, w') ∧
      strconv.ParseBool (Getenv (sampleWorld "v1.3.2" "true" "octocat" (profile "") emptyRepository)
        "UPDATE_TAGS") = .ok true ∧
      a.refs = [a.version, semver.Major a.version, semver.MajorMinor a.version] :=
  ⟨_, _, rfl, rfl,
    ((new_refs (sampleWorld "v1.3.2" "true" "octocat" (profile "") emptyRepository) _ _ true rfl
      rfl).2.2.2.2 rfl).1⟩

/-! ## Lemmas on collaborator calls -/

theorem call_snd (w : World) (e : Event) : (w.call e).2 = w.after e := rfl

theorem call_world {w w1 : World} {e : Event} {r : Option Error} (h : w.call e = (r, w1)) :
    w1 = w.after e := by
  rw [← call_snd, h]

theorem fault_faultFree {w : World} (h : w.faultFree) : w.fault = none := by
  unfold World.fault
  cases hf : w.faults with
  | nil => rfl
  | cons f fs =>
    have : f = none := h f (by rw [hf]; simp)
    subst this
    rfl

theorem call_faultFree {w : World} (e : Event) (h : w.faultFree) :
    w.call e = (none, w.after e) := by
  unfold World.call
  rw [fault_faultFree h]

theorem after_faultFree {w : World} (e : Event) (h : w.faultFree) : (w.after e).faultFree := by
  intro f hf
  exact h f (List.mem_of_mem_tail hf)

@[simp] theorem after_env (w : World) (e : Event) : (w.after e).env = w.env := rfl
@[simp] theorem after_clock (w : World) (e : Event) : (w.after e).clock = w.clock := rfl
@[simp] theorem after_today (w : World) (e : Event) : (w.after e).today = w.today := rfl
@[simp] theorem after_response (w : World) (e : Event) : (w.after e).response = w.response := rfl
@[simp] theorem after_document (w : World) (e : Event) : (w.after e).document = w.document := rfl
@[simp] theorem after_repo (w : World) (e : Event) : (w.after e).repo = w.repo := rfl
@[simp] theorem after_trace (w : World) (e : Event) : (w.after e).trace = w.trace ++ [e] := rfl
@[simp] theorem after_faults (w : World) (e : Event) : (w.after e).faults = w.faults.tail := rfl
@[simp] theorem Getenv_after (w : World) (e : Event) (k : String) :
    Getenv (w.after e) k = Getenv w k := rfl

/-! ## C7 and C6: identity resolution -/

/-- C7: with an empty actor name, every identity `newGitRepo` returns has an
author equal to the committer in name, email and time; it does return one as
soon as the repository and its worktree open; and the only collaborator calls it
makes are those two, so no request is built or sent to the profile endpoint. -/
theorem newGitRepo_empty_actor (w : World) (hactor : Getenv w "GITHUB_ACTOR" = []) :
    (∀ g w', newGitRepo w = (.ok g, w') →
      g.author.Name = g.committer.Name ∧ g.author.Email = g.committer.Email ∧
      g.author.When = g.committer.When ∧ g.committer = botSignature w.clock) ∧
    ((PlainOpen w).1 = none → (Worktree (PlainOpen w).2).1 = none →
      ∃ g, (newGitRepo w).1 = .ok g) ∧
    ((newGitRepo w).2.trace = w.trace ++ [Event.PlainOpen] ∨
     (newGitRepo w).2.trace = w.trace ++ [Event.PlainOpen, Event.Worktree]) := by
  unfold newGitRepo
  rcases h1 : PlainOpen w with ⟨r1, w1⟩
  have hw1 : w1 = w.after .PlainOpen := call_world h1
  cases r1 with
  | some err => subst hw1; simp
  | none =>
    dsimp only
    rcases h2 : Worktree w1 with ⟨r2, w2⟩
    have hw2 : w2 = w1.after .Worktree := call_world h2
    cases r2 with
    | some err => subst hw2 hw1; simp
    | none =>
      subst hw2 hw1
      simp only [Getenv_after, hactor, if_true]
      refine ⟨?_, ?_, ?_⟩
      · intro g w' hg
        simp only [Prod.mk.injEq, Except.ok.injEq] at hg
        obtain ⟨rfl, _⟩ := hg
        simp
      · intros; exact ⟨_, rfl⟩
      · right; simp

/-- A whole process never reaches `newGitRepo` with an empty actor name: `init`
exits first, on the actor or on a variable checked before it. -/
theorem run_empty_actor (sortSort : List ChangelogRelease → List ChangelogRelease) (w : World)
    (hactor : Getenv w "GITHUB_ACTOR" = []) :
    ∃ name, run sortSort w =
      fatal (Error.errorf "missing required environmental variable: %s" [name]) w := by
  unfold run init
  simp only [initLoop]
  split_ifs with h1 h2
  · exact ⟨_, rfl⟩
  · exact ⟨_, rfl⟩
  · exact ⟨_, rfl⟩

/-- C7, witness: a world whose actor variable is empty. -/
theorem newGitRepo_empty_actor_witness :
    Getenv (sampleWorld "v1.3.2" "true" "" (profile "") emptyRepository) "GITHUB_ACTOR" = [] ∧
    ∃ g, (newGitRepo (sampleWorld "v1.3.2" "true" "" (profile "") emptyRepository)).1 = .ok g :=
  ⟨rfl, (newGitRepo_empty_actor
    (sampleWorld "v1.3.2" "true" "" (profile "") emptyRepository) rfl).2.1 rfl rfl⟩

/-- C6, as stated, fails: for the actor `octocat` and a successful lookup whose
profile has no email, the author returned by `newGitRepo` has an empty email, not
a noreply placeholder. -/
theorem newGitRepo_author_email_counterexample :
    ∃ g w', newGitRepo (sampleWorld "v1.3.2" "true" "octocat" (profile "") emptyRepository)
        = (.ok g, w') ∧
      g.author.Name = "octocat".toList ∧ g.author.Email = [] := by
  exact ⟨_, _, rfl, rfl, rfl⟩

/-- C6 (amended): for a non-empty actor name, whenever `newGitRepo` returns an
identity the lookup answered with status 200 and a decodable body, the author
has the actor name as its name and the email of the profile as its email, be it
empty or not; the noreply address is the committer's only. -/
theorem newGitRepo_author (w w' : World) (g : gitRepo)
    (hactor : Getenv w "GITHUB_ACTOR" ≠ []) (h : newGitRepo w = (.ok g, w')) :
    g.author.Name = Getenv w "GITHUB_ACTOR" ∧
    w.response.StatusCode = 200 ∧
    w.response.Body = some g.author.Email ∧
    g.committer = botSignature w.clock := by
  unfold newGitRepo at h
  rcases h1 : PlainOpen w with ⟨r1, w1⟩
  have hw1 : w1 = w.after .PlainOpen := call_world h1
  rw [h1] at h
  cases r1 with
  | some err => simp at h
  | none =>
    dsimp only at h
    rcases h2 : Worktree w1 with ⟨r2, w2⟩
    have hw2 : w2 = w1.after .Worktree := call_world h2
    rw [h2] at h
    cases r2 with
    | some err => simp at h
    | none =>
      dsimp only at h
      have hact2 : Getenv w2 "GITHUB_ACTOR" = Getenv w "GITHUB_ACTOR" := by rw [hw2, hw1]; rfl
      rw [if_neg (by rw [hact2]; exact hactor)] at h
      rcases h3 : NewRequest ("https://api.github.com/users/".toList ++ Getenv w2 "GITHUB_ACTOR") w2
        with ⟨r3, w3⟩
      have hw3 := call_world h3
      rw [h3] at h
      cases r3 with
      | some err => simp at h
      | none =>
        dsimp only at h
        rcases h4 : Do ("https://api.github.com/users/".toList ++ Getenv w2 "GITHUB_ACTOR")
          ("Bearer ".toList ++ Getenv w3 "GITHUB_TOKEN") w3 with ⟨r4, w4⟩
        rw [h4] at h
        unfold Do at h4
        rcases h4c : w3.call (.Do ("https://api.github.com/users/".toList ++ Getenv w2 "GITHUB_ACTOR")
          ("Bearer ".toList ++ Getenv w3 "GITHUB_TOKEN")) with ⟨r4c, w4c⟩
        have hw4c := call_world h4c
        rw [h4c] at h4
        cases r4c with
        | some err =>
          simp only [Prod.mk.injEq] at h4
          obtain ⟨rfl, rfl⟩ := h4
          simp at h
        | none =>
          simp only [Prod.mk.injEq] at h4
          obtain ⟨rfl, rfl⟩ := h4
          dsimp only at h
          have hresp : w4c.response = w.response := by rw [hw4c, hw3, hw2, hw1]; rfl
          have hclock : w2.clock = w.clock := by rw [hw2, hw1]; rfl
          split_ifs at h with hcode
          · simp at h
          rcases h5 : ReadAll w4c with ⟨r5, w5⟩
          rw [h5] at h
          cases r5 with
          | some err => simp at h
          | none =>
            dsimp only at h
            split at h
            · simp at h
            · rename_i email hbody
              simp only [Prod.mk.injEq, Except.ok.injEq] at h
              obtain ⟨rfl, _⟩ := h
              simp only [ne_eq, not_not] at hcode
              rw [← hresp, hclock, hact2]
              refine ⟨?_, hcode, ?_, rfl⟩
              · split_ifs <;> rfl
              · rw [hbody]
                by_cases he : email = []
                · simp [he]
                · simp [he]

/-- C6 (amended), witness: the actor `octocat` with a profile email. -/
theorem newGitRepo_author_witness :
    Getenv (sampleWorld "v1.3.2" "true" "octocat" (profile "octo@example.org") emptyRepository)
      "GITHUB_ACTOR" ≠ [] ∧
    ∃ g w', newGitRepo (sampleWorld "v1.3.2" "true" "octocat" (profile "octo@example.org")
        emptyRepository) = (.ok g, w') ∧
      g.author.Name = "octocat".toList ∧ g.author.Email = "octo@example.org".toList :=
  ⟨by decide, _, _, rfl,
    (newGitRepo_author (sampleWorld "v1.3.2" "true" "octocat" (profile "octo@example.org")
      emptyRepository) _ _ (by decide) rfl).1, rfl⟩

/-! ## C3: the publish stage -/

theorem pushLoop_faultFree (a : app) (refs : List GoString) :
    ∀ w : World, w.faultFree → (pushLoop a refs w).1 = none := by
  induction refs with
  | nil => intro w _; rfl
  | cons r rs ih =>
    intro w hw
    simp only [pushLoop, Push, call_faultFree _ hw]
    exact ih _ (after_faultFree _ hw)

theorem pushLoop_trace (a : app) (refs : List GoString) :
    ∀ w : World, (pushLoop a refs w).1 = none →
      (pushLoop a refs w).2.trace = w.trace ++ refs.map (fun r => Event.Push (tagPush a r)) := by
  induction refs with
  | nil => intro w _; simp [pushLoop]
  | cons r rs ih =>
    intro w h
    simp only [pushLoop, Push] at h ⊢
    have hop : (if r ≠ a.version then
        ({ RefSpecs := [tagRefSpec r], Auth := a.git.auth, Force := true } : PushOptions)
        else { RefSpecs := [tagRefSpec r], Auth := a.git.auth, Force := false }) = tagPush a r := by
      unfold tagPush
      split_ifs with hr <;> simp [hr]
    rw [hop] at h ⊢
    rcases hc : w.call (Event.Push (tagPush a r)) with ⟨res, w1⟩
    have hw1 := call_world hc
    rw [hc] at h
    cases res with
    | some err => simp at h
    | none =>
      dsimp only at h ⊢
      rw [ih w1 h, hw1]
      simp

/-- C3: whenever `app.push` succeeds, the pushes it has issued are, in order,
one unforced push without ref-specs (the default ref set) and then, for each
reference `r` of `a.refs`, one push whose only ref-spec is
`refs/tags/r:refs/tags/r`, forced exactly when `r` differs from the version.
It does succeed when no push is scheduled to fail. -/
theorem push_trace (a : app) (w : World) :
    (w.faultFree → (push a w).1 = none) ∧
    ((push a w).1 = none →
      (push a w).2.trace = w.trace ++
        Event.Push { RefSpecs := [], Auth := a.git.auth, Force := false } ::
          a.refs.map (fun r => Event.Push
            { RefSpecs := ["refs/tags/".toList ++ r ++ ":refs/tags/".toList ++ r],
              Auth := a.git.auth, Force := decide (r ≠ a.version) })) := by
  constructor
  · intro hw
    simp only [push, Push, call_faultFree _ hw]
    exact pushLoop_faultFree a _ _ (after_faultFree _ hw)
  · intro h
    simp only [push, Push] at h ⊢
    rcases hc : w.call (Event.Push { RefSpecs := [], Auth := a.git.auth, Force := false })
      with ⟨res, w1⟩
    have hw1 := call_world hc
    rw [hc] at h
    cases res with
    | some err => simp at h
    | none =>
      dsimp only at h ⊢
      rw [pushLoop_trace a _ w1 h, hw1]
      simp [tagPush, tagRefSpec]

/-- C3, witness: the pushes of a run for `v1.3.2` with aliases when no call fails. -/
theorem push_trace_witness :
    (tagWorld emptyRepository []).faultFree ∧
    (push (sampleApp "v1.3.2" ["v1.3.2", "v1", "v1.3"]) (tagWorld emptyRepository [])).2.trace =
      [Event.Push { RefSpecs := [],
                    Auth := (sampleApp "v1.3.2" []).git.auth, Force := false },
       Event.Push { RefSpecs := ["refs/tags/v1.3.2:refs/tags/v1.3.2".toList],
                    Auth := (sampleApp "v1.3.2" []).git.auth, Force := false },
       Event.Push { RefSpecs := ["refs/tags/v1:refs/tags/v1".toList],
                    Auth := (sampleApp "v1.3.2" []).git.auth, Force := true },
       Event.Push { RefSpecs := ["refs/tags/v1.3:refs/tags/v1.3".toList],
                    Auth := (sampleApp "v1.3.2" []).git.auth, Force := true }] :=
  have hff : (tagWorld emptyRepository []).faultFree := by
    intro f hf; simp [tagWorld] at hf
  ⟨hff, ((push_trace (sampleApp "v1.3.2" ["v1.3.2", "v1", "v1.3"])
    (tagWorld emptyRepository [])).2
      ((push_trace (sampleApp "v1.3.2" ["v1.3.2", "v1", "v1.3"])
        (tagWorld emptyRepository [])).1 hff)).trans (by decide)⟩

/-! ## The order of semantic versions -/

theorem lexCmp_laws {α β : Type} {c1 : α → α → Int} {c2 : β → β → Int}
    (h1 : OrderLaws c1) (h2 : OrderLaws c2) : OrderLaws (lexCmp c1 c2) := by
  refine ⟨?_, ?_, ?_⟩
  · rintro ⟨a, b⟩ ⟨a', b'⟩
    simp only [lexCmp, Prod.mk.injEq]
    split_ifs with h
    · constructor
      · intro h0; exact absurd h0 h
      · rintro ⟨rfl, -⟩; exact absurd ((h1.eq_zero a a).mpr rfl) h
    · rw [ne_eq, not_not] at h
      rw [h2.eq_zero]
      exact ⟨fun hb => ⟨(h1.eq_zero a a').mp h, hb⟩, fun hb => hb.2⟩
  · rintro ⟨a, b⟩ ⟨a', b'⟩
    simp only [lexCmp]
    rw [h1.swap a a', h2.swap b b']
    split_ifs <;> omega
  · rintro ⟨a, b⟩ ⟨a', b'⟩ ⟨a'', b''⟩
    simp only [lexCmp]
    intro hxy hyz
    by_cases e1 : c1 a a' = 0
    · have := (h1.eq_zero a a').mp e1
      subst this
      rw [if_neg (by simpa using e1)] at hxy
      by_cases e2 : c1 a a'' = 0
      · rw [if_neg (by simpa using e2)] at hyz ⊢
        exact h2.trans _ _ _ hxy hyz
      · rw [if_pos e2] at hyz ⊢
        exact hyz
    · rw [if_pos e1] at hxy
      by_cases e2 : c1 a' a'' = 0
      · have := (h1.eq_zero a' a'').mp e2
        subst this
        rw [if_pos e1]
        exact hxy
      · rw [if_pos e2] at hyz
        have := h1.trans _ _ _ hxy hyz
        rw [if_pos (by omega)]
        exact this

theorem listCmp_laws {α : Type} {c : α → α → Int} (h : OrderLaws c) : OrderLaws (listCmp c) := by
  refine ⟨?_, ?_, ?_⟩
  · intro x
    induction x with
    | nil => intro y; cases y <;> simp [listCmp]
    | cons a x ih =>
      intro y
      cases y with
      | nil => simp [listCmp]
      | cons b y =>
        simp only [listCmp, List.cons.injEq]
        split_ifs with e
        · constructor
          · intro h0; exact absurd h0 e
          · rintro ⟨rfl, -⟩; exact absurd ((h.eq_zero a a).mpr rfl) e
        · rw [ne_eq, not_not] at e
          rw [ih y]
          exact ⟨fun hb => ⟨(h.eq_zero a b).mp e, hb⟩, fun hb => hb.2⟩
  · intro x
    induction x with
    | nil => intro y; cases y <;> simp [listCmp]
    | cons a x ih =>
      intro y
      cases y with
      | nil => simp [listCmp]
      | cons b y =>
        simp only [listCmp]
        rw [h.swap a b, ih y]
        split_ifs <;> omega
  · intro x
    induction x with
    | nil =>
      intro y z hxy hyz
      cases y with
      | nil => simp [listCmp] at hxy
      | cons b y =>
        cases z with
        | nil => simp [listCmp] at hyz
        | cons d z => simp [listCmp]
    | cons a x ih =>
      intro y z hxy hyz
      cases y with
      | nil => simp [listCmp] at hxy
      | cons b y =>
        cases z with
        | nil => simp [listCmp] at hyz
        | cons d z =>
          simp only [listCmp] at hxy hyz ⊢
          by_cases e1 : c a b = 0
          · have := (h.eq_zero a b).mp e1
            subst this
            rw [if_neg (by simpa using e1)] at hxy
            by_cases e2 : c a d = 0
            · rw [if_neg (by simpa using e2)] at hyz ⊢
              exact ih y z hxy hyz
            · rw [if_pos e2] at hyz ⊢
              exact hyz
          · rw [if_pos e1] at hxy
            by_cases e2 : c b d = 0
            · have := (h.eq_zero b d).mp e2
              subst this
              rw [if_pos e1]
              exact hxy
            · rw [if_pos e2] at hyz
              have := h.trans _ _ _ hxy hyz
              rw [if_pos (by omega)]
              exact this

theorem topCmp_laws {α : Type} {c : α → α → Int} (h : OrderLaws c) : OrderLaws (topCmp c) := by
  refine ⟨?_, ?_, ?_⟩
  · rintro (_ | a) (_ | b) <;> simp [topCmp, h.eq_zero]
  · rintro (_ | a) (_ | b) <;> simp [topCmp]
    exact h.swap a b
  · rintro (_ | a) (_ | b) (_ | d) <;> simp [topCmp]
    exact h.trans a b d

theorem botCmp_laws {α : Type} {c : α → α → Int} (h : OrderLaws c) : OrderLaws (botCmp c) := by
  refine ⟨?_, ?_, ?_⟩
  · rintro (_ | a) (_ | b) <;> simp [botCmp, h.eq_zero]
  · rintro (_ | a) (_ | b) <;> simp [botCmp]
    exact h.swap a b
  · rintro (_ | a) (_ | b) (_ | d) <;> simp [botCmp]
    exact h.trans a b d

theorem stringLess_irrefl (x : GoString) : semver.stringLess x x = false := by
  induction x with
  | nil => rfl
  | cons a x ih => simp [semver.stringLess, ih]

theorem stringLess_asymm : ∀ (x y : GoString), semver.stringLess x y = true →
    semver.stringLess y x = false := by
  intro x
  induction x with
  | nil => intro y _; cases y <;> rfl
  | cons a x ih =>
    intro y hxy
    cases y with
    | nil => simp [semver.stringLess] at hxy
    | cons b y =>
      simp only [semver.stringLess] at hxy ⊢
      split_ifs at hxy with e
      · subst e
        simp [ih y hxy]
      · rw [if_neg (fun h => e h.symm)]
        simp only [decide_eq_true_eq] at hxy
        simp only [decide_eq_false_iff_not]
        exact lt_asymm hxy

theorem stringLess_total : ∀ (x y : GoString), x ≠ y →
    semver.stringLess x y = true ∨ semver.stringLess y x = true := by
  intro x
  induction x with
  | nil =>
    intro y h
    cases y with
    | nil => exact absurd rfl h
    | cons b y => left; rfl
  | cons a x ih =>
    intro y h
    cases y with
    | nil => right; rfl
    | cons b y =>
      simp only [semver.stringLess]
      by_cases e : a = b
      · subst e
        simp only [if_true]
        exact ih y (fun hxy => h (by rw [hxy]))
      · rw [if_neg e, if_neg (fun h => e h.symm)]
        simp only [decide_eq_true_eq]
        rcases lt_trichotomy a b with hlt | heq | hgt
        · exact Or.inl hlt
        · exact absurd heq e
        · exact Or.inr hgt

theorem stringLess_trans : ∀ (x y z : GoString), semver.stringLess x y = true →
    semver.stringLess y z = true → semver.stringLess x z = true := by
  intro x
  induction x with
  | nil =>
    intro y z hxy hyz
    cases z with
    | nil => cases y <;> simp [semver.stringLess] at hyz
    | cons d z => rfl
  | cons a x ih =>
    intro y z hxy hyz
    cases y with
    | nil => simp [semver.stringLess] at hxy
    | cons b y =>
      cases z with
      | nil => simp [semver.stringLess] at hyz
      | cons d z =>
        simp only [semver.stringLess] at hxy hyz ⊢
        by_cases e1 : a = b
        · subst e1
          rw [if_pos rfl] at hxy
          by_cases e2 : a = d
          · subst e2
            rw [if_pos rfl] at hyz ⊢
            exact ih y z hxy hyz
          · rw [if_neg e2] at hyz ⊢
            exact hyz
        · rw [if_neg e1] at hxy
          simp only [decide_eq_true_eq] at hxy
          by_cases e2 : b = d
          · subst e2
            rw [if_neg e1]
            simpa using hxy
          · rw [if_neg e2] at hyz
            simp only [decide_eq_true_eq] at hyz
            have hlt : a < d := lt_trans hxy hyz
            rw [if_neg (ne_of_lt hlt)]
            simpa using hlt

/-- Function `semver.compareInt` is the order by length and then by text. -/
theorem compareInt_laws : OrderLaws semver.compareInt := by
  refine ⟨?_, ?_, ?_⟩
  · intro x y
    unfold semver.compareInt
    split_ifs <;> simp_all
  · intro x y
    unfold semver.compareInt
    by_cases e : x = y
    · subst e; simp
    · rw [if_neg e, if_neg (fun h => e h.symm)]
      rcases stringLess_total x y e with h | h
      · have h2 := stringLess_asymm x y h
        rw [h, h2]
        split_ifs <;> first | omega | simp_all
      · have h2 := stringLess_asymm y x h
        rw [h, h2]
        split_ifs <;> first | omega | simp_all
  · intro x y z
    have key : ∀ u v : GoString, semver.compareInt u v < 0 ↔
        (u.length < v.length ∨ (u.length = v.length ∧ semver.stringLess u v = true)) := by
      intro u v
      unfold semver.compareInt
      by_cases e : u = v
      · subst e; simp [stringLess_irrefl]
      · rw [if_neg e]
        split_ifs with h1 h2 h3
        · simp [h1]
        · simp; omega
        · simp [h3]; omega
        · simp [h3]; omega
    rw [key, key, key]
    rintro (h1 | ⟨h1, s1⟩) (h2 | ⟨h2, s2⟩)
    · left; omega
    · left; omega
    · left; omega
    · right; exact ⟨by omega, stringLess_trans x y z s1 s2⟩

/-- The comparison of identifiers in `semver.comparePrerelease` is a total order. -/
theorem identCmp_laws : OrderLaws identCmp := by
  have key : ∀ u v : GoString, identCmp u v < 0 ↔
      ((semver.isNum u = true ∧ semver.isNum v = false) ∨
       (semver.isNum u = true ∧ semver.isNum v = true ∧
          (u.length < v.length ∨ (u.length = v.length ∧ semver.stringLess u v = true))) ∨
       (semver.isNum u = false ∧ semver.isNum v = false ∧ semver.stringLess u v = true)) := by
    intro u v
    unfold identCmp semver.compareIdent
    by_cases e : u = v
    · subst e
      cases hu : semver.isNum u <;> simp [stringLess_irrefl]
    · rw [if_neg e]
      cases hu : semver.isNum u <;> cases hv : semver.isNum v <;> simp
      · split_ifs <;> simp_all
      · split_ifs with h1 h2 h3
        · simp [h1]
        · simp; omega
        · simp [h3]; omega
        · simp [h3]; omega
  have nz : ∀ u v : GoString, u ≠ v → identCmp u v = -1 ∨ identCmp u v = 1 := by
    intro u v e
    unfold identCmp semver.compareIdent
    rw [if_neg e]
    dsimp only
    split_ifs <;> simp
  refine ⟨?_, ?_, ?_⟩
  · intro x y
    constructor
    · intro h
      by_contra e
      rcases nz x y e with h1 | h1 <;> omega
    · rintro rfl
      simp [identCmp]
  · intro x y
    by_cases e : x = y
    · subst e; simp [identCmp]
    · have kxy := key x y
      have kyx := key y x
      have t := stringLess_total x y e
      have a1 : semver.stringLess x y = true → semver.stringLess y x = false :=
        stringLess_asymm x y
      have a2 : semver.stringLess y x = true → semver.stringLess x y = false :=
        stringLess_asymm y x
      rcases nz x y e with h1 | h1 <;> rcases nz y x (fun h => e h.symm) with h2 | h2
      · exfalso
        have p1 := kxy.mp (by omega)
        have p2 := kyx.mp (by omega)
        clear kxy kyx t h1 h2
        cases hx : semver.isNum x <;> cases hy : semver.isNum y
        all_goals simp only [hx, hy] at p1 p2
        all_goals simp at p1 p2
        · rw [a1 p1] at p2
          exact absurd p2 (by simp)
        · rcases p1 with r | ⟨r, s⟩ <;> rcases p2 with r' | ⟨r', s'⟩
          · omega
          · omega
          · omega
          · rw [a1 s] at s'; exact absurd s' (by simp)
      · omega
      · omega
      · exfalso
        have p1 : ¬ identCmp x y < 0 := by omega
        have p2 : ¬ identCmp y x < 0 := by omega
        rw [kxy] at p1
        rw [kyx] at p2
        clear kxy kyx h1 h2 a1 a2
        cases hx : semver.isNum x <;> cases hy : semver.isNum y
        all_goals simp only [hx, hy] at p1 p2
        all_goals simp at p1 p2
        · rcases t with t | t
          · exact absurd t (by simp [p1])
          · exact absurd t (by simp [p2])
        · rcases t with t | t
          · exact absurd t (by rw [p1.2 (by omega)]; simp)
          · exact absurd t (by rw [p2.2 (by omega)]; simp)
  · intro x y z
    rw [key, key, key]
    have tr := stringLess_trans x y z
    rintro (⟨p, q⟩ | ⟨p, q, r⟩ | ⟨p, q, r⟩) (⟨p', q'⟩ | ⟨p', q', r'⟩ | ⟨p', q', r'⟩) <;>
      simp_all
    rcases r with r | ⟨r, s⟩ <;> rcases r' with r' | ⟨r', s'⟩
    · left; omega
    · left; omega
    · left; omega
    · right; exact ⟨by omega, tr s s'⟩

theorem identifiers_ne_nil (b : GoString) : identifiers b ≠ [] := by
  cases b with
  | nil => simp [identifiers]
  | cons c s =>
    simp only [identifiers]
    split_ifs
    · simp
    · split <;> simp

/-- The identifiers of a string are its first identifier, as `semver.nextIdent`
cuts it, and the identifiers of the rest. -/
theorem identifiers_eq (b : GoString) :
    identifiers b = (semver.nextIdent b).1 :: restIdentifiers (semver.nextIdent b).2 := by
  induction b with
  | nil => rfl
  | cons c s ih =>
    simp only [identifiers, semver.nextIdent]
    by_cases e : c = '.'
    · subst e
      simp [restIdentifiers, List.takeWhile, List.dropWhile]
    · rw [if_neg e]
      have hc : (c != '.') = true := by simpa using e
      rw [List.takeWhile_cons, List.dropWhile_cons, hc]
      simp only [if_true]
      rw [ih]
      simp [semver.nextIdent]

theorem identifiers_injective : ∀ (b b' : GoString), identifiers b = identifiers b' → b = b' := by
  intro b
  induction b with
  | nil =>
    intro b' h
    cases b' with
    | nil => rfl
    | cons c s =>
      exfalso
      simp only [identifiers] at h
      split_ifs at h with e
      · simp at h
        exact identifiers_ne_nil s h
      · split at h <;> simp at h
  | cons a x ih =>
    intro b' h
    cases b' with
    | nil =>
      exfalso
      simp only [identifiers] at h
      split_ifs at h with e
      · simp at h
        exact identifiers_ne_nil x h
      · split at h <;> simp at h
    | cons c s =>
      simp only [identifiers] at h
      by_cases e1 : a = '.' <;> by_cases e2 : c = '.'
      · rw [if_pos e1, if_pos e2] at h
        simp only [List.cons.injEq, true_and] at h
        rw [e1, e2, ih s h]
      · rw [if_pos e1, if_neg e2] at h
        split at h <;> simp at h
      · rw [if_neg e1, if_pos e2] at h
        split at h <;> simp at h
      · rw [if_neg e1, if_neg e2] at h
        rcases hx : identifiers x with _ | ⟨d, ds⟩
        · exact absurd hx (identifiers_ne_nil x)
        · rcases hs : identifiers s with _ | ⟨d', ds'⟩
          · exact absurd hs (identifiers_ne_nil s)
          · rw [hx, hs] at h
            simp only [List.cons.injEq] at h
            obtain ⟨⟨rfl, rfl⟩, rfl⟩ := h
            rw [ih s (by rw [hx, hs])]

theorem nextIdent_length (b : GoString) : (semver.nextIdent b).2.length ≤ b.length := by
  simp only [semver.nextIdent]
  exact (List.dropWhile_sublist _).length_le

theorem compareIdent_ne_zero (dx dy : GoString) : semver.compareIdent dx dy ≠ 0 := by
  unfold semver.compareIdent
  dsimp only
  split_ifs <;> simp

/-- The loop of `semver.comparePrerelease` compares the identifiers that are
left one by one, and answers -1 when none differs. -/
theorem comparePrereleaseLoop_eq : ∀ (n : Nat) (x y : GoString), x.length ≤ n →
    semver.comparePrereleaseLoop n x y =
      if restIdentifiers x = restIdentifiers y then -1
      else listCmp identCmp (restIdentifiers x) (restIdentifiers y) := by
  intro n
  induction n with
  | zero =>
    intro x y hx
    have hx0 : x = [] := List.length_eq_zero.mp (Nat.le_zero.mp hx)
    subst hx0
    cases hy : restIdentifiers y <;> simp [semver.comparePrereleaseLoop, restIdentifiers, listCmp]
  | succ n ih =>
    intro x y hx
    cases x with
    | nil =>
      cases hy : restIdentifiers y <;> simp [semver.comparePrereleaseLoop, restIdentifiers, listCmp]
    | cons c b =>
      cases y with
      | nil =>
        rcases hb : identifiers b with _ | ⟨d, ds⟩
        · exact absurd hb (identifiers_ne_nil b)
        · simp [semver.comparePrereleaseLoop, restIdentifiers, listCmp, hb]
      | cons c' b' =>
        simp only [semver.comparePrereleaseLoop, restIdentifiers, List.drop_succ_cons, List.drop_zero]
        rw [if_pos ⟨by simp, by simp⟩]
        rw [identifiers_eq b, identifiers_eq b']
        by_cases e : (semver.nextIdent b).1 = (semver.nextIdent b').1
        · rw [if_neg (by simpa using e)]
          rw [ih _ _ (by have := nextIdent_length b; simp only [List.length_cons] at hx; omega)]
          have hz : identCmp (semver.nextIdent b').1 (semver.nextIdent b').1 = 0 :=
            (identCmp_laws.eq_zero _ _).mpr rfl
          rw [e]
          simp only [List.cons.injEq, true_and, listCmp, hz, ne_eq, not_true_eq_false, if_false]
        · rw [if_pos e]
          rw [if_neg (by simp [e])]
          simp only [listCmp]
          have hc : identCmp (semver.nextIdent b).1 (semver.nextIdent b').1 =
              semver.compareIdent (semver.nextIdent b).1 (semver.nextIdent b').1 := by
            simp [identCmp, e]
          rw [hc, if_pos (compareIdent_ne_zero _ _)]

/-- On pre-release strings as `semver.parse` returns them, empty or starting
with a hyphen, `semver.comparePrerelease` is the order of the lists of
identifiers, with the empty string above all. -/
theorem comparePrerelease_eq (x y : GoString)
    (hx : x = [] ∨ ∃ b, x = '-' :: b) (hy : y = [] ∨ ∃ b, y = '-' :: b) :
    semver.comparePrerelease x y = topCmp (listCmp identCmp) (preKey x) (preKey y) := by
  unfold semver.comparePrerelease
  by_cases e : x = y
  · subst e
    rw [if_pos rfl]
    exact ((topCmp_laws (listCmp_laws identCmp_laws)).eq_zero _ _).mpr rfl |>.symm
  · rw [if_neg e]
    rcases hx with rfl | ⟨b, rfl⟩
    · rcases hy with rfl | ⟨b', rfl⟩
      · exact absurd rfl e
      · simp [preKey, topCmp]
    · rcases hy with rfl | ⟨b', rfl⟩
      · simp [preKey, topCmp]
      · rw [if_neg (by simp), if_neg (by simp)]
        rw [comparePrereleaseLoop_eq _ _ _ (le_refl _)]
        have hne : identifiers b ≠ identifiers b' := by
          intro h
          exact e (by rw [identifiers_injective b b' h])
        simp only [restIdentifiers, preKey, topCmp]
        rw [if_neg hne]

theorem parsePrereleaseLoop_seen : ∀ (v ident seen t rest : GoString),
    semver.parsePrereleaseLoop v ident seen = some (t, rest) → ∃ u, t = seen ++ u := by
  intro v
  induction v with
  | nil =>
    intro ident seen t rest h
    simp only [semver.parsePrereleaseLoop] at h
    split_ifs at h
    simp only [Option.some.injEq, Prod.mk.injEq] at h
    exact ⟨[], by simp [h.1]⟩
  | cons c cs ih =>
    intro ident seen t rest h
    simp only [semver.parsePrereleaseLoop] at h
    split_ifs at h
    · simp only [Option.some.injEq, Prod.mk.injEq] at h
      exact ⟨[], by simp [h.1]⟩
    · obtain ⟨u, hu⟩ := ih _ _ _ _ h
      exact ⟨c :: u, by simp [hu]⟩
    · obtain ⟨u, hu⟩ := ih _ _ _ _ h
      exact ⟨c :: u, by simp [hu]⟩

/-- The pre-release part of a parsed version is empty or starts with a hyphen. -/
theorem parse_prerelease {v : GoString} {pv : semver.parsed} (h : semver.parse v = some pv) :
    pv.prerelease = [] ∨ ∃ b, pv.prerelease = '-' :: b := by
  cases v with
  | nil => simp [semver.parse] at h
  | cons c v1 =>
    simp only [semver.parse] at h
    split_ifs at h with hc
    split at h
    · simp at h
    · simp only [Option.some.injEq] at h
      subst h
      exact Or.inl rfl
    · split_ifs at h with hd
      split at h
      · simp at h
      · simp only [Option.some.injEq] at h
        subst h
        exact Or.inl rfl
      · split_ifs at h with he
        split at h
        · simp at h
        · rename_i patch v6 hint3
          split at h
          · simp at h
          · rename_i prerelease v7 hpre
            split at h
            · simp at h
            · split_ifs at h
              simp only [Option.some.injEq] at h
              subst h
              dsimp only
              split_ifs at hpre with h6
              · cases v6 with
                | nil => simp at h6
                | cons d v6' =>
                  simp only [semver.parsePrerelease] at hpre
                  split_ifs at hpre with hd6
                  obtain ⟨u, hu⟩ := parsePrereleaseLoop_seen _ _ _ _ _ hpre
                  simp only [ne_eq, not_not] at hd6
                  subst hd6
                  exact Or.inr ⟨u, by simpa using hu⟩
              · simp only [Option.some.injEq, Prod.mk.injEq] at hpre
                exact Or.inl hpre.1.symm

/-- Function `semver.Compare` is the order of the version keys. -/
theorem Compare_eq (v w : GoString) :
    semver.Compare v w = keyCmp (versionKey v) (versionKey w) := by
  unfold semver.Compare versionKey keyCmp
  rcases hv : semver.parse v with _ | pv <;> rcases hw : semver.parse w with _ | pw
  · rfl
  · rfl
  · rfl
  · simp only [Option.map_some', botCmp, lexCmp]
    rw [comparePrerelease_eq _ _ (parse_prerelease hv) (parse_prerelease hw)]

theorem keyCmp_laws : OrderLaws keyCmp :=
  botCmp_laws (lexCmp_laws compareInt_laws (lexCmp_laws compareInt_laws
    (lexCmp_laws compareInt_laws (topCmp_laws (listCmp_laws identCmp_laws)))))

theorem Compare_swap (v w : GoString) : semver.Compare w v = - semver.Compare v w := by
  rw [Compare_eq, Compare_eq]
  exact keyCmp_laws.swap _ _

theorem Less_irrefl (r : ChangelogRelease) : Releases.Less r r = false := by
  have h := Compare_swap r.canonical r.canonical
  simp only [Releases.Less, decide_eq_false_iff_not]
  omega

theorem releaseURL_env (sortSort : List ChangelogRelease → List ChangelogRelease) (a : app)
    (w : World) :
    (releaseURL sortSort a w).2.trace = w.trace ∧ (releaseURL sortSort a w).2.today = w.today ∧
    (releaseURL sortSort a w).2.faults = w.faults ∧ (releaseURL sortSort a w).2.env = w.env ∧
    (releaseURL sortSort a w).2.repo = w.repo := by
  unfold releaseURL
  dsimp only
  split_ifs
  · split
    · split <;> simp
    · simp
  · simp

/-- For every `sortSort` that returns the releases reordered and ascending, as
`sort.Sort` does: when all releases carry a version, the URL is the compare
URL from the version of a release that no release is above. -/
theorem releaseURL_sorted (sortSort : List ChangelogRelease → List ChangelogRelease) (a : app)
    (w : World)
    (hperm : (sortSort w.document.Releases).Perm w.document.Releases)
    (hsorted : (sortSort w.document.Releases).Pairwise (fun x y => Releases.Less y x = false))
    (hne : w.document.Releases ≠ [])
    (hver : ∀ r ∈ w.document.Releases, r.Version ≠ none) :
    ∃ r p, r ∈ w.document.Releases ∧ r.Version = some p ∧
      (∀ r' ∈ w.document.Releases, Releases.Less r r' = false) ∧
      (releaseURL sortSort a w).1 = "https://github.com/".toList ++
        Getenv w "GITHUB_REPOSITORY" ++ "/compare/v".toList ++ p ++ "...".toList ++ a.version := by
  have hpos : w.document.Releases.length > 0 := List.length_pos.mpr hne
  have htne : sortSort w.document.Releases ≠ [] := by
    intro ht
    rw [ht] at hperm
    exact hne (List.Perm.nil_eq hperm).symm
  obtain ⟨r, hr⟩ : ∃ r, (sortSort w.document.Releases).getLast? = some r := by
    cases hl : (sortSort w.document.Releases).getLast? with
    | none => exact absurd (List.getLast?_eq_none_iff.mp hl) htne
    | some r => exact ⟨r, rfl⟩
  obtain ⟨ys, hys⟩ := List.getLast?_eq_some_iff.mp hr
  have hmem : r ∈ w.document.Releases := hperm.subset (by rw [hys]; simp)
  obtain ⟨p, hp⟩ : ∃ p, r.Version = some p := by
    cases hv : r.Version with
    | none => exact absurd hv (hver r hmem)
    | some p => exact ⟨p, rfl⟩
  refine ⟨r, p, hmem, hp, ?_, ?_⟩
  · intro r' hr'
    have hr't : r' ∈ sortSort w.document.Releases := hperm.symm.subset hr'
    rw [hys] at hr't hsorted
    rcases List.mem_append.mp hr't with hin | hin
    · exact (List.pairwise_append.mp hsorted).2.2 r' hin r (by simp)
    · rw [List.mem_singleton.mp hin]; exact Less_irrefl r
  · simp only [releaseURL, if_pos hpos, hr, hp]

/-- For every `sortSort` that returns the releases reordered and ascending:
when a release is above every release with a version other than `p`, the URL
is the compare URL from `p`. -/
theorem releaseURL_top (sortSort : List ChangelogRelease → List ChangelogRelease) (a : app)
    (w : World)
    (hperm : (sortSort w.document.Releases).Perm w.document.Releases)
    (hsorted : (sortSort w.document.Releases).Pairwise (fun x y => Releases.Less y x = false))
    (hver : ∀ r ∈ w.document.Releases, r.Version ≠ none)
    (r : ChangelogRelease) (p : GoString) (hr : r ∈ w.document.Releases)
    (htop : ∀ r' ∈ w.document.Releases, r'.Version = some p ∨ Releases.Less r' r = true) :
    (releaseURL sortSort a w).1 = "https://github.com/".toList ++
      Getenv w "GITHUB_REPOSITORY" ++ "/compare/v".toList ++ p ++ "...".toList ++ a.version := by
  obtain ⟨r0, p0, hr0, hp0, hmax, hurl⟩ :=
    releaseURL_sorted sortSort a w hperm hsorted (List.ne_nil_of_mem hr) hver
  rcases htop r0 hr0 with h | h
  · rw [hp0] at h
    rw [hurl, Option.some.inj h]
  · rw [hmax r hr] at h
    exact absurd h (by simp)

theorem find?_none_of_hasTag {r : Repository} {n : GoString} (h : r.hasTag n = false) :
    r.tags.find? (fun p => p.1 == n) = none := by
  unfold Repository.hasTag at h
  rw [List.find?_eq_none]
  intro x hx hp
  have : r.tags.any (fun p => p.1 == n) = true := List.any_eq_true.mpr ⟨x, hx, hp⟩
  rw [h] at this
  exact Bool.noConfusion this

theorem hasTag_of_tagOf {r : Repository} {n : GoString} {t : TagTarget}
    (h : r.tagOf n = some t) : r.hasTag n = true := by
  cases hh : r.hasTag n with
  | true => rfl
  | false =>
    unfold Repository.tagOf at h
    rw [find?_none_of_hasTag hh] at h
    simp at h

theorem tagOf_addTag_self {r : Repository} {t : Tag} (h : r.hasTag t.Name = false) :
    (r.addTag t).tagOf t.Name = some (TagTarget.tag t) := by
  unfold Repository.tagOf Repository.addTag
  simp [List.find?_append, find?_none_of_hasTag h]

theorem tagOf_addTag_ne (r : Repository) (t : Tag) {n : GoString} (h : n ≠ t.Name) :
    (r.addTag t).tagOf n = r.tagOf n := by
  unfold Repository.tagOf Repository.addTag
  have : (t.Name == n) = false := by simpa using fun he => h he.symm
  simp [List.find?_append, this]

theorem tagOf_removeTag_ne (r : Repository) {name n : GoString} (h : n ≠ name) :
    (r.removeTag name).tagOf n = r.tagOf n := by
  unfold Repository.tagOf Repository.removeTag
  simp only [List.find?_filter]
  congr 2
  funext p
  by_cases hp : p.1 = n
  · simp [hp, h]
  · simp [hp]

theorem hasTag_removeTag_self (r : Repository) (name : GoString) :
    (r.removeTag name).hasTag name = false := by
  unfold Repository.hasTag Repository.removeTag
  rw [Bool.eq_false_iff]
  intro h
  obtain ⟨x, hx, hp⟩ := List.any_eq_true.mp h
  have := (List.mem_filter.mp hx).2
  simp at this hp
  exact this hp

theorem removeTag_objects (r : Repository) (name : GoString) :
    (r.removeTag name).objects = r.objects := rfl

theorem removeTag_head (r : Repository) (name : GoString) :
    (r.removeTag name).head = r.head := rfl

theorem addTag_head (r : Repository) (t : Tag) : (r.addTag t).head = r.head := rfl

/-! ## Lemmas on `CreateTag` and `DeleteTag` -/

theorem CreateTag_eq (name : GoString) (hash : Hash) (opts : CreateTagOptions) (w : World) :
    CreateTag name hash opts w =
      match w.fault with
      | some err => (some err, w.after (.CreateTag name hash opts))
      | none =>
        if w.repo.hasTag name = true then
          (some Error.ErrTagExists, w.after (.CreateTag name hash opts))
        else
          (none, { w.after (.CreateTag name hash opts) with
            repo := w.repo.addTag (Tag.mk name hash opts.Message opts.Tagger) }) := by
  unfold CreateTag World.call
  cases w.fault <;> rfl

theorem DeleteTag_eq (name : GoString) (w : World) :
    DeleteTag name w =
      match w.fault with
      | some err => (some err, w.after (.DeleteTag name))
      | none =>
        if w.repo.hasTag name = true then
          (none, { w.after (.DeleteTag name) with repo := w.repo.removeTag name })
        else (some Error.ErrTagNotFound, w.after (.DeleteTag name)) := by
  unfold DeleteTag World.call
  cases w.fault <;> rfl

theorem fault_ne_ErrTagExists {w : World} (h : w.fault = some Error.ErrTagExists) : False := by
  unfold World.fault at h
  split at h <;> simp at h

/-- A successful `CreateTag`. -/
theorem CreateTag_none {name : GoString} {hash : Hash} {opts : CreateTagOptions} {w w1 : World}
    (h : CreateTag name hash opts w = (none, w1)) :
    w.repo.hasTag name = false ∧
    w1.repo = w.repo.addTag (Tag.mk name hash opts.Message opts.Tagger) ∧
    w1.trace = w.trace ++ [.CreateTag name hash opts] ∧ w1.faults = w.faults.tail := by
  rw [CreateTag_eq] at h
  cases hf : w.fault with
  | some err => rw [hf] at h; simp at h
  | none =>
    rw [hf] at h
    dsimp only at h
    by_cases ht : w.repo.hasTag name = true
    · rw [if_pos ht] at h; simp at h
    · rw [if_neg ht] at h
      simp only [Prod.mk.injEq, true_and] at h
      subst h
      exact ⟨by simpa using ht, rfl, rfl, rfl⟩

/-- A failed `CreateTag` leaves the repository as it was; it reports
`ErrTagExists` only for a reference that exists. -/
theorem CreateTag_some {name : GoString} {hash : Hash} {opts : CreateTagOptions} {w w1 : World}
    {err : Error} (h : CreateTag name hash opts w = (some err, w1)) :
    w1 = w.after (.CreateTag name hash opts) ∧
    (err = Error.ErrTagExists → w.repo.hasTag name = true) := by
  rw [CreateTag_eq] at h
  cases hf : w.fault with
  | some e =>
    rw [hf] at h
    simp only [Prod.mk.injEq, Option.some.injEq] at h
    refine ⟨h.2.symm, ?_⟩
    rintro rfl
    rw [h.1] at hf
    exact (fault_ne_ErrTagExists hf).elim
  | none =>
    rw [hf] at h
    dsimp only at h
    by_cases ht : w.repo.hasTag name = true
    · rw [if_pos ht] at h
      simp only [Prod.mk.injEq, Option.some.injEq] at h
      exact ⟨h.2.symm, fun _ => ht⟩
    · rw [if_neg ht] at h; simp at h

/-- A successful `DeleteTag`. -/
theorem DeleteTag_none {name : GoString} {w w1 : World} (h : DeleteTag name w = (none, w1)) :
    w1.repo = w.repo.removeTag name ∧ w1.trace = w.trace ++ [.DeleteTag name] ∧
    w1.faults = w.faults.tail := by
  rw [DeleteTag_eq] at h
  cases hf : w.fault with
  | some err => rw [hf] at h; simp at h
  | none =>
    rw [hf] at h
    dsimp only at h
    by_cases ht : w.repo.hasTag name = true
    · rw [if_pos ht] at h
      simp only [Prod.mk.injEq, true_and] at h
      subst h
      exact ⟨rfl, rfl, rfl⟩
    · rw [if_neg ht] at h; simp at h

/-- A failed `DeleteTag` leaves the repository as it was. -/
theorem DeleteTag_some {name : GoString} {w w1 : World} {err : Error}
    (h : DeleteTag name w = (some err, w1)) : w1 = w.after (.DeleteTag name) := by
  rw [DeleteTag_eq] at h
  cases hf : w.fault with
  | some e =>
    rw [hf] at h
    simp only [Prod.mk.injEq] at h
    exact h.2.symm
  | none =>
    rw [hf] at h
    dsimp only at h
    by_cases ht : w.repo.hasTag name = true
    · rw [if_pos ht] at h; simp at h
    · rw [if_neg ht] at h
      simp only [Prod.mk.injEq] at h
      exact h.2.symm

/-! ## One iteration of the tag loop -/

/-- An iteration that completes leaves the reference `v` naming a fresh tag
object at the head, touches no other reference, and has issued either one
`CreateTag`, or, for an alias only, `CreateTag`, `DeleteTag`, `CreateTag`. -/
theorem tagStep_none {a : app} {h : Hash} {v : GoString} {w w1 : World}
    (hs : tagStep a h v w = (none, w1)) :
    w1.repo.tagOf v = some (TagTarget.tag (newTag a h v)) ∧
    (∀ n, n ≠ v → w1.repo.tagOf n = w.repo.tagOf n) ∧
    w1.repo.head = w.repo.head ∧
    (w1.trace = w.trace ++ [createEvent a h v] ∨
      (v ≠ a.version ∧
        w1.trace = w.trace ++ [createEvent a h v, Event.DeleteTag v, createEvent a h v])) := by
  unfold tagStep at hs
  rcases hc : CreateTag v h { Message := v, Tagger := a.git.committer } w with ⟨_ | err, wA⟩
  · rw [hc] at hs
    simp only [Prod.mk.injEq, true_and] at hs
    subst hs
    obtain ⟨hno, hrepo, htr, -⟩ := CreateTag_none hc
    replace hrepo : wA.repo = w.repo.addTag (newTag a h v) := hrepo
    refine ⟨?_, ?_, ?_, Or.inl htr⟩
    · rw [hrepo]; exact tagOf_addTag_self (t := newTag a h v) hno
    · intro n hn; rw [hrepo]; exact tagOf_addTag_ne _ (newTag a h v) hn
    · rw [hrepo]; rfl
  · rw [hc] at hs
    dsimp only at hs
    obtain ⟨hwA, -⟩ := CreateTag_some hc
    by_cases hcond : v ≠ a.version ∧ err = Error.ErrTagExists
    · rw [if_pos hcond] at hs
      rcases hd : DeleteTag v wA with ⟨_ | err2, wB⟩
      · rw [hd] at hs
        dsimp only at hs
        obtain ⟨hrepoB, htrB, -⟩ := DeleteTag_none hd
        rcases hc2 : CreateTag v h { Message := v, Tagger := a.git.committer } wB with ⟨_ | err3, wC⟩
        · rw [hc2] at hs
          simp only [Prod.mk.injEq, true_and] at hs
          subst hs
          obtain ⟨hno, hrepoC, htrC, -⟩ := CreateTag_none hc2
          replace hrepoC : wC.repo = wB.repo.addTag (newTag a h v) := hrepoC
          have hAr : wA.repo = w.repo := by rw [hwA]; rfl
          have hAt : wA.trace = w.trace ++ [createEvent a h v] := by rw [hwA]; rfl
          refine ⟨?_, ?_, ?_, Or.inr ⟨hcond.1, ?_⟩⟩
          · rw [hrepoC]; exact tagOf_addTag_self (t := newTag a h v) hno
          · intro n hn
            rw [hrepoC, tagOf_addTag_ne _ (newTag a h v) hn, hrepoB, tagOf_removeTag_ne _ hn, hAr]
          · rw [hrepoC, addTag_head, hrepoB, removeTag_head, hAr]
          · rw [htrC, htrB, hAt]; simp [createEvent]
        · rw [hc2] at hs; simp at hs
      · rw [hd] at hs; simp at hs
    · rw [if_neg hcond] at hs; simp at hs

/-- An iteration that returns an error touches no reference but `v`, changes
nothing at all when `v` is the exact version, and has issued at most one
`DeleteTag` and at most one retry, all on `v`. -/
theorem tagStep_some {a : app} {h : Hash} {v : GoString} {w w1 : World} {err : Error}
    (hs : tagStep a h v w = (some err, w1)) :
    (∀ n, n ≠ v → w1.repo.tagOf n = w.repo.tagOf n) ∧
    (v = a.version → w1.repo = w.repo) ∧
    (w1.trace = w.trace ++ [createEvent a h v] ∨
      (v ≠ a.version ∧ w1.trace = w.trace ++ [createEvent a h v, Event.DeleteTag v]) ∨
      (v ≠ a.version ∧
        w1.trace = w.trace ++ [createEvent a h v, Event.DeleteTag v, createEvent a h v])) := by
  unfold tagStep at hs
  rcases hc : CreateTag v h { Message := v, Tagger := a.git.committer } w with ⟨_ | err1, wA⟩
  · rw [hc] at hs; simp at hs
  · rw [hc] at hs
    dsimp only at hs
    obtain ⟨hwA, -⟩ := CreateTag_some hc
    have hAr : wA.repo = w.repo := by rw [hwA]; rfl
    have hAt : wA.trace = w.trace ++ [createEvent a h v] := by rw [hwA]; rfl
    by_cases hcond : v ≠ a.version ∧ err1 = Error.ErrTagExists
    · rw [if_pos hcond] at hs
      rcases hd : DeleteTag v wA with ⟨_ | err2, wB⟩
      · rw [hd] at hs
        dsimp only at hs
        obtain ⟨hrepoB, htrB, -⟩ := DeleteTag_none hd
        rcases hc2 : CreateTag v h { Message := v, Tagger := a.git.committer } wB with ⟨_ | err3, wC⟩
        · rw [hc2] at hs; simp at hs
        · rw [hc2] at hs
          simp only [Prod.mk.injEq] at hs
          obtain ⟨-, rfl⟩ := hs
          obtain ⟨hwC, -⟩ := CreateTag_some hc2
          refine ⟨?_, fun hv => absurd hv hcond.1, Or.inr (Or.inr ⟨hcond.1, ?_⟩)⟩
          · intro n hn
            rw [hwC, after_repo, hrepoB, tagOf_removeTag_ne _ hn, hAr]
          · rw [hwC, after_trace, htrB, hAt]; simp [createEvent]
      · rw [hd] at hs
        simp only [Prod.mk.injEq] at hs
        obtain ⟨-, rfl⟩ := hs
        have hwB := DeleteTag_some hd
        refine ⟨?_, fun hv => absurd hv hcond.1, Or.inr (Or.inl ⟨hcond.1, ?_⟩)⟩
        · intro n _; rw [hwB, after_repo, hAr]
        · rw [hwB, after_trace, hAt]; simp
    · rw [if_neg hcond] at hs
      simp only [Prod.mk.injEq] at hs
      obtain ⟨-, rfl⟩ := hs
      exact ⟨fun n _ => by rw [hAr], fun _ => hAr, Or.inl hAt⟩

/-- Each of the named failures makes the iteration return an error. -/
theorem tagStep_of_stepFails {a : app} {h : Hash} {r : GoString} {w : World}
    (hf : stepFails a h r w) : ∃ err w2, tagStep a h r w = (some err, w2) := by
  unfold tagStep
  rcases hc : CreateTag r h { Message := r, Tagger := a.git.committer } w with ⟨res, wA⟩
  unfold stepFails at hf
  rw [hc] at hf
  dsimp only at hf
  rcases hf with ⟨hr, err, he⟩ | ⟨hr, err, hne, he⟩ | ⟨hr, he, err, hd⟩ | ⟨hr, he, hd, err, hc2⟩
  · subst he
    dsimp only
    rw [if_neg (fun hcond => hcond.1 hr)]
    exact ⟨_, _, rfl⟩
  · subst he
    dsimp only
    rw [if_neg (fun hcond => hne hcond.2)]
    exact ⟨_, _, rfl⟩
  · subst he
    dsimp only
    rw [if_pos ⟨hr, rfl⟩]
    rcases hd' : DeleteTag r wA with ⟨res2, wB⟩
    rw [hd'] at hd
    dsimp only at hd
    subst hd
    exact ⟨_, _, rfl⟩
  · subst he
    dsimp only
    rw [if_pos ⟨hr, rfl⟩]
    rcases hd' : DeleteTag r wA with ⟨res2, wB⟩
    rw [hd'] at hd hc2
    dsimp only at hd hc2
    subst hd
    dsimp only
    rcases hc2' : CreateTag r h { Message := r, Tagger := a.git.committer } wB with ⟨res3, wC⟩
    rw [hc2'] at hc2
    dsimp only at hc2
    subst hc2
    exact ⟨_, _, rfl⟩

/-! ## The tag loop -/

theorem tagLoop_append_ok (a : app) (h : Hash) (l : List GoString) :
    ∀ (pre : List GoString) (w w1 : World), tagLoop a h pre w = (none, w1) →
      tagLoop a h (pre ++ l) w = tagLoop a h l w1 := by
  intro pre
  induction pre with
  | nil =>
    intro w w1 hp
    simp only [tagLoop, Prod.mk.injEq, true_and] at hp
    subst hp
    rfl
  | cons v vs ih =>
    intro w w1 hp
    simp only [tagLoop, List.cons_append] at hp ⊢
    rcases hs : tagStep a h v w with ⟨_ | err, wm⟩
    · rw [hs] at hp
      exact ih wm w1 hp
    · rw [hs] at hp; simp at hp

/-- A loop that completes keeps a tag that already has the form the loop gives it. -/
theorem tagLoop_keeps (a : app) (h : Hash) (p : GoString) :
    ∀ (l : List GoString) (w w1 : World), tagLoop a h l w = (none, w1) →
      w.repo.tagOf p = some (TagTarget.tag (newTag a h p)) →
      w1.repo.tagOf p = some (TagTarget.tag (newTag a h p)) := by
  intro l
  induction l with
  | nil =>
    intro w w1 hl hp
    simp only [tagLoop, Prod.mk.injEq, true_and] at hl
    subst hl
    exact hp
  | cons v vs ih =>
    intro w w1 hl hp
    simp only [tagLoop] at hl
    rcases hs : tagStep a h v w with ⟨_ | err, wm⟩
    · rw [hs] at hl
      obtain ⟨hself, hother, -, -⟩ := tagStep_none hs
      apply ih wm w1 hl
      by_cases hpv : p = v
      · subst hpv; exact hself
      · rw [hother p hpv]; exact hp
    · rw [hs] at hl; simp at hl

/-- A loop that completes leaves every reference it went through naming a
tag object at the head. -/
theorem tagLoop_tags (a : app) (h : Hash) :
    ∀ (l : List GoString) (w w1 : World), tagLoop a h l w = (none, w1) →
      ∀ p ∈ l, w1.repo.tagOf p = some (TagTarget.tag (newTag a h p)) := by
  intro l
  induction l with
  | nil => intro w w1 _ p hp; simp at hp
  | cons v vs ih =>
    intro w w1 hl p hp
    have hl' := hl
    simp only [tagLoop] at hl
    rcases hs : tagStep a h v w with ⟨_ | err, wm⟩
    · rw [hs] at hl
      rcases List.mem_cons.mp hp with rfl | hin
      · exact tagLoop_keeps a h p vs wm w1 hl (tagStep_none hs).1
      · exact ih wm w1 hl p hin
    · rw [hs] at hl; simp at hl

/-- A loop that completes has issued, for each reference in turn, either one
`CreateTag`, or, for an alias only, `CreateTag`, `DeleteTag`, `CreateTag`. -/
theorem tagLoop_calls (a : app) (h : Hash) :
    ∀ (l : List GoString) (w w1 : World), tagLoop a h l w = (none, w1) →
      ∃ calls : List (List Event), w1.trace = w.trace ++ calls.flatten ∧
        List.Forall₂ (fun p es => es = [createEvent a h p] ∨
          (p ≠ a.version ∧ es = [createEvent a h p, Event.DeleteTag p, createEvent a h p]))
          l calls := by
  intro l
  induction l with
  | nil =>
    intro w w1 hl
    simp only [tagLoop, Prod.mk.injEq, true_and] at hl
    subst hl
    exact ⟨[], by simp, List.Forall₂.nil⟩
  | cons v vs ih =>
    intro w w1 hl
    simp only [tagLoop] at hl
    rcases hs : tagStep a h v w with ⟨_ | err, wm⟩
    · rw [hs] at hl
      obtain ⟨calls, htr, hall⟩ := ih wm w1 hl
      rcases (tagStep_none hs).2.2.2 with ht | ⟨hv, ht⟩
      · exact ⟨_ :: calls, by rw [htr, ht]; simp, List.Forall₂.cons (Or.inl rfl) hall⟩
      · exact ⟨_ :: calls, by rw [htr, ht]; simp, List.Forall₂.cons (Or.inr ⟨hv, rfl⟩) hall⟩
    · rw [hs] at hl; simp at hl

theorem Major_ne_MajorMinor {v : GoString} (hvalid : semver.IsValid v = true) :
    semver.Major v ≠ semver.MajorMinor v := by
  obtain ⟨pv, hp⟩ := Option.isSome_iff_exists.mp hvalid
  rw [Major_eq hp, MajorMinor_eq hp]
  intro he
  have := congrArg List.length he
  simp at this

/-- In the references built by `new`, an alias never repeats an earlier reference. -/
theorem new_refs_alias_once {w0 w0' : World} {a : app} (hnew : new w0 = (.ok a, w0'))
    {pre post : List GoString} {r : GoString} (hrefs : a.refs = pre ++ r :: post) :
    r = a.version ∨ r ∉ pre := by
  obtain ⟨-, hvalid, u, -, hr⟩ := new_ok hnew
  have hne := Major_ne_MajorMinor hvalid
  rw [hrefs] at hr
  by_cases hrv : r = a.version
  · exact Or.inl hrv
  right
  cases u with
  | false =>
    rcases pre with _ | ⟨x, pre'⟩
    · simp
    · simp at hr
  | true =>
    simp only [if_true, List.cons_append, List.nil_append] at hr
    rcases pre with _ | ⟨x, _ | ⟨y, _ | ⟨z, t⟩⟩⟩
    · simp
    · simp only [List.cons_append, List.nil_append, List.cons.injEq] at hr
      obtain ⟨rfl, -⟩ := hr
      simpa using hrv
    · simp only [List.cons_append, List.nil_append, List.cons.injEq] at hr
      obtain ⟨rfl, rfl, rfl, -⟩ := hr
      simp only [List.mem_cons, List.mem_singleton, List.not_mem_nil, or_false, not_or]
      exact ⟨hrv, fun he => hne he.symm⟩
    · simp at hr

/-! ## C9: a failing iteration ends the tag stage -/

/-- C9: for an `app` built by `new`, let the tag stage have passed its
existence check and read the head `h`, and let the loop have completed the
references `pre`.  If the iteration for the next reference `r` meets one of the
named failures, then `app.tag` returns an error.  Up to that iteration each
reference of `pre` got one `CreateTag` and at most one `DeleteTag` with one
retry; the calls issued after `pre` are one `CreateTag`, at most one `DeleteTag`
and at most one retry, all on `r`, so no later reference is created or deleted;
no reference other than `r` is changed by the failing iteration; and every
reference of `pre` still names the tag object created for it at the head. -/
theorem tag_stops_at_failure (w0 w0' : World) (a : app) (hnew : new w0 = (.ok a, w0'))
    (c h : Hash) (w wA wB w1 : World) (pre post : List GoString) (r : GoString)
    (hrefs : a.refs = pre ++ r :: post)
    (hcheck : checkVersionTagExistence a w = (.ok false, wA))
    (hhead : Head wA = (.ok h, wB))
    (hpre : tagLoop a h pre wB = (none, w1))
    (hfail : stepFails a h r w1) :
    ∃ err w2, tag a c w = (some err, w2) ∧
      (∃ calls : List (List Event), w1.trace = wB.trace ++ calls.flatten ∧
        List.Forall₂ (fun p es => es = [createEvent a h p] ∨
          (p ≠ a.version ∧ es = [createEvent a h p, Event.DeleteTag p, createEvent a h p]))
          pre calls) ∧
      (w2.trace = w1.trace ++ [createEvent a h r] ∨
        w2.trace = w1.trace ++ [createEvent a h r, Event.DeleteTag r] ∨
        w2.trace = w1.trace ++ [createEvent a h r, Event.DeleteTag r, createEvent a h r]) ∧
      (∀ n, n ≠ r → w2.repo.tagOf n = w1.repo.tagOf n) ∧
      (∀ p ∈ pre, w2.repo.tagOf p = some (TagTarget.tag (newTag a h p))) := by
  obtain ⟨err, w2, hstep⟩ := tagStep_of_stepFails hfail
  obtain ⟨hother, hversion, htrace⟩ := tagStep_some hstep
  have htag : tag a c w = (some err, w2) := by
    unfold tag
    rw [hcheck]
    dsimp only
    rw [hhead]
    dsimp only
    rw [hrefs, tagLoop_append_ok a h (r :: post) pre wB w1 hpre]
    simp only [tagLoop, hstep]
  refine ⟨err, w2, htag, tagLoop_calls a h pre wB w1 hpre, ?_, hother, ?_⟩
  · rcases htrace with ht | ⟨-, ht⟩ | ⟨-, ht⟩
    · exact Or.inl ht
    · exact Or.inr (Or.inl ht)
    · exact Or.inr (Or.inr ht)
  · intro p hp
    have hp1 := tagLoop_tags a h pre wB w1 hpre p hp
    by_cases hpr : p = r
    · subst hpr
      rcases new_refs_alias_once hnew hrefs with hv | hnot
      · rw [hversion hv]; exact hp1
      · exact absurd hp hnot
    · rw [hother p hpr]; exact hp1

/-- C9, witness: a run for `v1.3.2` with aliases on a repository that has the
alias `v1`, where the sixth collaborator call of the tag stage, the deletion of
`v1`, is scheduled to fail: `v1.3.2` has been created and stays. -/
theorem tag_stops_at_failure_witness :
    stepFails (sampleApp "v1.3.2" ["v1.3.2", "v1", "v1.3"]) 2 "v1".toList
      (tagLoop (sampleApp "v1.3.2" ["v1.3.2", "v1", "v1.3"]) 2 ["v1.3.2".toList]
        (Head (checkVersionTagExistence (sampleApp "v1.3.2" ["v1.3.2", "v1", "v1.3"])
          (tagWorld aliasRepository [none, none, none, none, none, some 5])).2).2).2 ∧
    ∃ err w2, tag (sampleApp "v1.3.2" ["v1.3.2", "v1", "v1.3"]) 2
        (tagWorld aliasRepository [none, none, none, none, none, some 5]) = (some err, w2) ∧
      w2.repo.tagOf "v1.3.2".toList = some (TagTarget.tag
        (newTag (sampleApp "v1.3.2" ["v1.3.2", "v1", "v1.3"]) 2 "v1.3.2".toList)) := by
  have hfail : stepFails (sampleApp "v1.3.2" ["v1.3.2", "v1", "v1.3"]) 2 "v1".toList
      (tagLoop (sampleApp "v1.3.2" ["v1.3.2", "v1", "v1.3"]) 2 ["v1.3.2".toList]
        (Head (checkVersionTagExistence (sampleApp "v1.3.2" ["v1.3.2", "v1", "v1.3"])
          (tagWorld aliasRepository [none, none, none, none, none, some 5])).2).2).2 :=
    Or.inr (Or.inr (Or.inl ⟨by decide, rfl, _, rfl⟩))
  obtain ⟨err, w2, htag, -, -, -, hpre⟩ := tag_stops_at_failure
    (sampleWorld "v1.3.2" "true" "octocat" (profile "") emptyRepository) _
    (sampleApp "v1.3.2" ["v1.3.2", "v1", "v1.3"]) rfl 2 2
    (tagWorld aliasRepository [none, none, none, none, none, some 5]) _ _ _
    ["v1.3.2".toList] ["v1.3".toList] "v1".toList rfl rfl rfl rfl hfail
  exact ⟨hfail, err, w2, htag, hpre _ (by simp)⟩

/-! ## The existence check -/

theorem fault_external {w : World} {err : Error} (h : w.fault = some err) :
    err ≠ Error.ErrTagExists := by
  rintro rfl
  exact fault_ne_ErrTagExists h

theorem forEachTag_found (v : GoString) :
    ∀ (tags : List Tag) (s : Bool), (∃ t ∈ tags, t.Name = v) →
      forEachTag (fun t res => if t.Name = v then (true, some Error.ErrTagExists) else (res, none))
        tags s = (true, some Error.ErrTagExists) := by
  intro tags
  induction tags with
  | nil => intro s h; simp at h
  | cons t ts ih =>
    intro s h
    by_cases ht : t.Name = v
    · simp [forEachTag, ht]
    · simp only [forEachTag, if_neg ht]
      apply ih
      obtain ⟨x, hx, hxv⟩ := h
      rcases List.mem_cons.mp hx with rfl | hx'
      · exact absurd hxv ht
      · exact ⟨x, hx', hxv⟩

theorem forEachTag_not_found (v : GoString) :
    ∀ (tags : List Tag) (s : Bool), (∀ t ∈ tags, t.Name ≠ v) →
      forEachTag (fun t res => if t.Name = v then (true, some Error.ErrTagExists) else (res, none))
        tags s = (s, none) := by
  intro tags
  induction tags with
  | nil => intro s _; rfl
  | cons t ts ih =>
    intro s h
    have ht : t.Name ≠ v := h t (by simp)
    simp only [forEachTag, if_neg ht]
    exact ih s (fun x hx => h x (by simp [hx]))

/-- The existence check, by the outcome of its two collaborator calls. -/
theorem checkVersionTagExistence_eq (a : app) (w : World) :
    checkVersionTagExistence a w =
      match w.fault with
      | some err => (.error (wrap "error fetching tags: %s" [] err), w.after .TagObjects)
      | none =>
        match (w.after .TagObjects).fault with
        | some err =>
          (.error (wrap "tags iterator error: %s" [] err), (w.after .TagObjects).after .ForEach)
        | none =>
          (.ok (decide (∃ t ∈ w.repo.objects, t.Name = a.version)),
            (w.after .TagObjects).after .ForEach) := by
  unfold checkVersionTagExistence TagObjects ForEach World.call
  cases hf : w.fault with
  | some err => rfl
  | none =>
    dsimp only
    cases hf2 : (w.after Event.TagObjects).fault with
    | some err =>
      dsimp only
      rw [if_pos (fault_external hf2)]
    | none =>
      dsimp only
      by_cases hex : ∃ t ∈ w.repo.objects, t.Name = a.version
      · have := forEachTag_found a.version w.repo.objects false hex
        simp only [after_repo] at this ⊢
        rw [this]
        simp [hex]
      · have hall : ∀ t ∈ w.repo.objects, t.Name ≠ a.version := by
          intro t ht hn; exact hex ⟨t, ht, hn⟩
        have := forEachTag_not_found a.version w.repo.objects false hall
        simp only [after_repo] at this ⊢
        rw [this]
        simp [hex]

/-! ## The tag stage when no call fails -/

theorem faultFree_of_tail {w w' : World} (hw : w.faultFree) (h : w'.faults = w.faults.tail) :
    w'.faultFree := by
  intro f hf
  rw [h] at hf
  exact hw f (List.mem_of_mem_tail hf)

theorem hasTag_eq_isSome (r : Repository) (n : GoString) : r.hasTag n = (r.tagOf n).isSome := by
  cases hh : r.hasTag n with
  | false =>
    unfold Repository.tagOf
    rw [find?_none_of_hasTag hh]
    rfl
  | true =>
    unfold Repository.hasTag at hh
    obtain ⟨x, hx, hp⟩ := List.any_eq_true.mp hh
    unfold Repository.tagOf
    cases hfind : r.tags.find? (fun p => p.1 == n) with
    | none => exact absurd hp (by simpa using List.find?_eq_none.mp hfind x hx)
    | some y => rfl

theorem removeTag_of_not_hasTag {r : Repository} {n : GoString} (h : r.hasTag n = false) :
    r.removeTag n = r := by
  unfold Repository.removeTag
  have : r.tags.filter (fun p => p.1 != n) = r.tags := by
    rw [List.filter_eq_self]
    intro x hx
    unfold Repository.hasTag at h
    have hx' : ¬ (x.1 == n) = true := by
      intro hp
      have : r.tags.any (fun p => p.1 == n) = true := List.any_eq_true.mpr ⟨x, hx, hp⟩
      rw [h] at this
      exact Bool.noConfusion this
    simpa using hx'
  rw [this]

/-- When no call fails, an iteration for a reference that is an alias or does
not exist completes: the reference, removed first if it existed, names a fresh
tag object at the head. -/
theorem tagStep_faultFree_ok {a : app} {h : Hash} {v : GoString} {w : World}
    (hw : w.faultFree) (hv : v ≠ a.version ∨ w.repo.hasTag v = false) :
    ∃ w1, tagStep a h v w = (none, w1) ∧ w1.faultFree ∧
      w1.repo = (w.repo.removeTag v).addTag (newTag a h v) ∧
      w1.trace = w.trace ++ stepEvents a h w.repo v := by
  unfold tagStep
  rw [CreateTag_eq, fault_faultFree hw]
  dsimp only
  by_cases ht : w.repo.hasTag v = true
  · have hne : v ≠ a.version := by
      rcases hv with hv | hv
      · exact hv
      · rw [ht] at hv; exact Bool.noConfusion hv
    rw [if_pos ht]
    dsimp only
    rw [if_pos ⟨hne, rfl⟩]
    have hwA : (w.after (Event.CreateTag v h { Message := v, Tagger := a.git.committer })).faultFree :=
      after_faultFree _ hw
    rw [DeleteTag_eq, fault_faultFree hwA]
    dsimp only
    rw [if_pos (by simpa using ht)]
    dsimp only
    rw [CreateTag_eq]
    have hwB : World.faultFree { (w.after (Event.CreateTag v h
        { Message := v, Tagger := a.git.committer })).after (Event.DeleteTag v) with
        repo := (w.after (Event.CreateTag v h
          { Message := v, Tagger := a.git.committer })).repo.removeTag v } :=
      faultFree_of_tail hwA rfl
    rw [fault_faultFree hwB]
    dsimp only
    rw [if_neg (by simp [hasTag_removeTag_self])]
    refine ⟨_, rfl, faultFree_of_tail hwB rfl, rfl, ?_⟩
    simp [stepEvents, ht, createEvent]
  · rw [if_neg ht]
    dsimp only
    refine ⟨_, rfl, faultFree_of_tail hw rfl, ?_, ?_⟩
    · rw [removeTag_of_not_hasTag (by simpa using ht)]; rfl
    · simp [stepEvents, ht, createEvent]

/-- When no call fails, the iteration for the exact version on a repository
that has that reference returns the tagging error around `ErrTagExists` and
changes nothing. -/
theorem tagStep_faultFree_version {a : app} {h : Hash} {w : World}
    (hw : w.faultFree) (ht : w.repo.hasTag a.version = true) :
    tagStep a h a.version w =
      (some (wrap "error tagging a commit (%s): %s" [a.version] Error.ErrTagExists),
        w.after (createEvent a h a.version)) := by
  unfold tagStep
  rw [CreateTag_eq, fault_faultFree hw]
  dsimp only
  rw [if_pos ht]
  dsimp only
  rw [if_neg (fun hc => hc.1 rfl)]
  rfl

/-- When no call fails and no tag object is named like the version, `app.tag`
reaches its loop with the current head. -/
theorem tag_faultFree {a : app} {c : Hash} {w : World} (hw : w.faultFree)
    (hobj : ∀ t ∈ w.repo.objects, t.Name ≠ a.version) :
    ∃ wB, tag a c w = tagLoop a w.repo.head a.refs wB ∧ wB.faultFree ∧ wB.repo = w.repo ∧
      wB.trace = w.trace ++ [Event.TagObjects, Event.ForEach, Event.Head] := by
  unfold tag
  rw [checkVersionTagExistence_eq, fault_faultFree hw,
    fault_faultFree (after_faultFree Event.TagObjects hw)]
  dsimp only
  have hno : ¬ ∃ t ∈ w.repo.objects, t.Name = a.version := by
    rintro ⟨t, ht, hn⟩; exact hobj t ht hn
  rw [decide_eq_false hno]
  dsimp only
  have hw2 := after_faultFree Event.ForEach (after_faultFree Event.TagObjects hw)
  unfold Head World.call
  rw [fault_faultFree hw2]
  dsimp only
  exact ⟨_, rfl, after_faultFree _ hw2, rfl, by simp⟩

theorem retag_tagOf_self (a : app) (h : Hash) (r : Repository) (v : GoString) :
    ((r.removeTag v).addTag (newTag a h v)).tagOf v = some (TagTarget.tag (newTag a h v)) :=
  tagOf_addTag_self (t := newTag a h v) (hasTag_removeTag_self r v)

theorem retag_tagOf_ne (a : app) (h : Hash) (r : Repository) {v n : GoString} (hn : n ≠ v) :
    ((r.removeTag v).addTag (newTag a h v)).tagOf n = r.tagOf n := by
  rw [tagOf_addTag_ne _ (newTag a h v) hn, tagOf_removeTag_ne _ hn]

theorem shorthand_not_formVXYZ {v : GoString} (hs : formVX v ∨ formVXY v) : ¬ formVXYZ v := by
  rintro ⟨X, Y, Z, suffix, hX, hY, hZ, hv⟩
  rcases hs with ⟨X', hX', hv'⟩ | ⟨X', Y', hX', hY', hv'⟩
  · rw [hv] at hv'
    simp only [List.cons.injEq, true_and] at hv'
    exact isNumber_dot_not_mem hX' (by rw [← hv']; simp)
  · rw [hv] at hv'
    simp only [List.cons.injEq, true_and] at hv'
    have := (List.append_cons_inj_of_not_mem (isNumber_dot_not_mem hX')
      (isNumber_dot_not_mem hY')).mp hv'.symm
    exact isNumber_dot_not_mem hY' (by rw [this.2.2]; simp)

/-- When a tag named like the version exists, as a tag object or as a
reference, and the references start with the version, `app.tag` returns an
error after calls without effect: the enumeration of the tags, then possibly
`Head`, then possibly the `CreateTag` of the version, which fails. -/
theorem tag_of_existing (a : app) (c : Hash) (w : World) (rest : List GoString)
    (hrefs : a.refs = a.version :: rest)
    (hex : (∃ t ∈ w.repo.objects, t.Name = a.version) ∨ w.repo.hasTag a.version = true) :
    ∃ err, (tag a c w).1 = some err ∧
      ((tag a c w).2 = w.after Event.TagObjects ∨
       (tag a c w).2 = (w.after Event.TagObjects).after Event.ForEach ∨
       (tag a c w).2 = ((w.after Event.TagObjects).after Event.ForEach).after Event.Head ∨
       (tag a c w).2 = (((w.after Event.TagObjects).after Event.ForEach).after Event.Head).after
          (createEvent a w.repo.head a.version)) := by
  unfold tag
  rw [checkVersionTagExistence_eq]
  cases hf : w.fault with
  | some err => exact ⟨_, rfl, Or.inl rfl⟩
  | none =>
    dsimp only
    cases hf2 : (w.after Event.TagObjects).fault with
    | some err => exact ⟨_, rfl, Or.inr (Or.inl rfl)⟩
    | none =>
      dsimp only
      by_cases hobj : ∃ t ∈ w.repo.objects, t.Name = a.version
      · rw [decide_eq_true hobj]
        exact ⟨_, rfl, Or.inr (Or.inl rfl)⟩
      · rw [decide_eq_false hobj]
        dsimp only
        have href : w.repo.hasTag a.version = true := hex.resolve_left hobj
        unfold Head World.call
        cases hf3 : ((w.after Event.TagObjects).after Event.ForEach).fault with
        | some err => exact ⟨_, rfl, Or.inr (Or.inr (Or.inl rfl))⟩
        | none =>
          dsimp only
          rw [hrefs]
          simp only [tagLoop, tagStep]
          rw [CreateTag_eq]
          cases hf4 : (((w.after Event.TagObjects).after Event.ForEach).after Event.Head).fault with
          | some err =>
            dsimp only
            rw [if_neg (fun hc => hc.1 rfl)]
            exact ⟨_, rfl, Or.inr (Or.inr (Or.inr rfl))⟩
          | none =>
            dsimp only
            have href' : (((w.after Event.TagObjects).after Event.ForEach).after
                Event.Head).repo.hasTag a.version = true := href
            rw [if_pos href']
            dsimp only
            rw [if_neg (fun hc => hc.1 rfl)]
            exact ⟨_, rfl, Or.inr (Or.inr (Or.inr rfl))⟩

/-- C10: for an `app` built by `new` from a shorthand version (`vX` or `vX.Y`)
with aliasing enabled, the references name the version twice, and on a
repository without tags where no collaborator call fails, `app.tag` returns the
tagging error around `ErrTagExists`, leaving behind the exact-version tag it
created at the head earlier in the same call. -/
theorem tag_shorthand_fails (w0 w0' : World) (a : app) (hnew : new w0 = (.ok a, w0'))
    (hu : strconv.ParseBool (Getenv w0 "UPDATE_TAGS") = .ok true)
    (hshort : formVX a.version ∨ formVXY a.version)
    (c : Hash) (w : World) (hff : w.faultFree)
    (hobj : w.repo.objects = []) (htags : w.repo.tags = []) :
    a.refs.count a.version = 2 ∧
    ∃ w2, tag a c w =
        (some (wrap "error tagging a commit (%s): %s" [a.version] Error.ErrTagExists), w2) ∧
      w2.repo.tagOf a.version = some (TagTarget.tag (newTag a w.repo.head a.version)) := by
  obtain ⟨-, hvalid, -, -, halias⟩ := new_refs_shape w0 w0' a true hnew hu
  obtain ⟨hrefs, -, hdup⟩ := halias rfl
  obtain ⟨-, hcount⟩ := hdup (shorthand_not_formVXYZ hshort)
  refine ⟨hcount, ?_⟩
  have hne := Major_ne_MajorMinor hvalid
  obtain ⟨wB, htag, hwB, hrepoB, -⟩ := tag_faultFree (a := a) (c := c) hff
    (by intro t ht; rw [hobj] at ht; simp at ht)
  have hnoB : wB.repo.hasTag a.version = false := by
    rw [hrepoB]; simp [Repository.hasTag, htags]
  obtain ⟨w1, hs1, hw1, hrepo1, -⟩ :=
    tagStep_faultFree_ok (a := a) (h := w.repo.head) hwB (Or.inr hnoB)
  have htag1 : w1.repo.tagOf a.version = some (TagTarget.tag (newTag a w.repo.head a.version)) := by
    rw [hrepo1]; exact retag_tagOf_self a _ _ _
  rw [htag, hrefs]
  by_cases hM : semver.Major a.version = a.version
  · refine ⟨w1.after (createEvent a w.repo.head a.version), ?_, htag1⟩
    simp only [tagLoop, hs1, hM, tagStep_faultFree_version hw1 (hasTag_of_tagOf htag1)]
  · have hMM : semver.MajorMinor a.version = a.version := by
      by_contra hMM
      rw [hrefs] at hcount
      simp [List.count_cons, hM, hMM] at hcount
    obtain ⟨w2, hs2, hw2, hrepo2, -⟩ :=
      tagStep_faultFree_ok (a := a) (h := w.repo.head) (v := semver.Major a.version) hw1 (Or.inl hM)
    have htag2 : w2.repo.tagOf a.version
        = some (TagTarget.tag (newTag a w.repo.head a.version)) := by
      rw [hrepo2, retag_tagOf_ne a _ _ (fun he => hM he.symm)]; exact htag1
    refine ⟨w2.after (createEvent a w.repo.head a.version), ?_, htag2⟩
    simp only [tagLoop, hs1, hs2, hMM, tagStep_faultFree_version hw2 (hasTag_of_tagOf htag2)]

/-- C10, witness: the shorthand version `v1` with aliases on an empty repository. -/
theorem tag_shorthand_fails_witness :
    formVX "v1".toList ∧
    ∃ w2, tag (sampleApp "v1" ["v1", "v1", "v1.0"]) 2
        (sampleWorld "v1" "true" "octocat" (profile "") emptyRepository) =
        (some (wrap "error tagging a commit (%s): %s" ["v1".toList] Error.ErrTagExists), w2) ∧
      w2.repo.tagOf "v1".toList
        = some (TagTarget.tag (newTag (sampleApp "v1" ["v1", "v1", "v1.0"]) 1 "v1".toList)) :=
  have hform : formVX "v1".toList := ⟨['1'], ⟨by decide, by decide⟩, rfl⟩
  ⟨hform, (tag_shorthand_fails (sampleWorld "v1" "true" "octocat" (profile "") emptyRepository) _
    (sampleApp "v1" ["v1", "v1", "v1.0"]) rfl rfl (Or.inl hform) 2
    (sampleWorld "v1" "true" "octocat" (profile "") emptyRepository)
    (by intro f hf; simp [sampleWorld] at hf) rfl rfl).2⟩

/-! ## C2: an existing alias is moved -/

theorem stepEvents_congr (a : app) (h : Hash) {r r' : Repository} {v : GoString}
    (ht : r'.tagOf v = r.tagOf v) : stepEvents a h r' v = stepEvents a h r v := by
  unfold stepEvents
  rw [hasTag_eq_isSome r', hasTag_eq_isSome r, ht]

/-- C2: for an `app` built by `new` from a version of the form `vX.Y.Z` with
aliasing enabled, on a repository that has no tag of the exact version but has
an alias (`vX` or `vX.Y`) at an older commit, and when no collaborator call
fails, `app.tag` succeeds; afterwards the alias and the exact version both name
tag objects created at the head; the calls issued are the enumeration, `Head`,
one `CreateTag` for the version and, for each alias, `CreateTag`, `DeleteTag`,
`CreateTag` if it existed and one `CreateTag` otherwise; the existing alias is
thus deleted and recreated, and no `DeleteTag` is issued for the version. -/
theorem tag_moves_alias (w0 w0' : World) (a : app) (hnew : new w0 = (.ok a, w0'))
    (hu : strconv.ParseBool (Getenv w0 "UPDATE_TAGS") = .ok true)
    (hform : formVXYZ a.version)
    (c : Hash) (w : World) (hff : w.faultFree)
    (hobj : ∀ t ∈ w.repo.objects, t.Name ≠ a.version)
    (href : w.repo.tagOf a.version = none)
    (r : GoString)
    (hr : r = semver.Major a.version ∨ r = semver.MajorMinor a.version)
    (old : TagTarget) (hold : w.repo.tagOf r = some old)
    (_holder : old.resolve ≠ w.repo.head) :
    ∃ w' evs, tag a c w = (none, w') ∧
      w'.repo.head = w.repo.head ∧
      w'.repo.tagOf r = some (TagTarget.tag (newTag a w.repo.head r)) ∧
      w'.repo.tagOf a.version = some (TagTarget.tag (newTag a w.repo.head a.version)) ∧
      w'.trace = w.trace ++ evs ∧
      evs = [Event.TagObjects, Event.ForEach, Event.Head, createEvent a w.repo.head a.version] ++
        stepEvents a w.repo.head w.repo (semver.Major a.version) ++
        stepEvents a w.repo.head w.repo (semver.MajorMinor a.version) ∧
      stepEvents a w.repo.head w.repo r =
        [createEvent a w.repo.head r, Event.DeleteTag r, createEvent a w.repo.head r] ∧
      Event.DeleteTag a.version ∉ evs := by
  obtain ⟨-, -, -, -, hal⟩ := new_refs_shape w0 w0' a true hnew hu
  obtain ⟨hrefs, hnodup, -⟩ := hal rfl
  have hnd := hnodup hform
  rw [hrefs] at hnd
  simp only [List.nodup_cons, List.mem_cons, List.mem_singleton, List.not_mem_nil, not_or,
    not_false_eq_true, List.nodup_nil, and_true] at hnd
  obtain ⟨⟨hvM, hvMM⟩, hMMM⟩ := hnd
  obtain ⟨wB, htag, hwB, hrepoB, htrB⟩ := tag_faultFree (a := a) (c := c) hff hobj
  have hnoB : wB.repo.hasTag a.version = false := by
    rw [hrepoB, hasTag_eq_isSome, href]; rfl
  obtain ⟨w1, hs1, hw1, hrepo1, htr1⟩ :=
    tagStep_faultFree_ok (a := a) (h := w.repo.head) hwB (Or.inr hnoB)
  obtain ⟨w2, hs2, hw2, hrepo2, htr2⟩ :=
    tagStep_faultFree_ok (a := a) (h := w.repo.head) (v := semver.Major a.version) hw1
      (Or.inl (fun he => hvM he.symm))
  obtain ⟨w3, hs3, hw3, hrepo3, htr3⟩ :=
    tagStep_faultFree_ok (a := a) (h := w.repo.head) (v := semver.MajorMinor a.version) hw2
      (Or.inl (fun he => hvMM he.symm))
  have hloop : tag a c w = (none, w3) := by
    rw [htag, hrefs]
    simp only [tagLoop, hs1, hs2, hs3]
  have hM1 : w1.repo.tagOf (semver.Major a.version) = w.repo.tagOf (semver.Major a.version) := by
    rw [hrepo1, retag_tagOf_ne a _ _ (fun he => hvM he.symm), hrepoB]
  have hMM2 : w2.repo.tagOf (semver.MajorMinor a.version)
      = w.repo.tagOf (semver.MajorMinor a.version) := by
    rw [hrepo2, retag_tagOf_ne a _ _ (fun he => hMMM he.symm), hrepo1,
      retag_tagOf_ne a _ _ (fun he => hvMM he.symm), hrepoB]
  have hev1 : stepEvents a w.repo.head wB.repo a.version = [createEvent a w.repo.head a.version] := by
    simp [stepEvents, hnoB]
  refine ⟨w3, _, hloop, ?_, ?_, ?_, ?_, rfl, ?_, ?_⟩
  · rw [hrepo3, addTag_head, removeTag_head, hrepo2, addTag_head, removeTag_head, hrepo1,
      addTag_head, removeTag_head, hrepoB]
  · rcases hr with rfl | rfl
    · rw [hrepo3, retag_tagOf_ne a _ _ hMMM, hrepo2]
      exact retag_tagOf_self a _ _ _
    · rw [hrepo3]
      exact retag_tagOf_self a _ _ _
  · rw [hrepo3, retag_tagOf_ne a _ _ hvMM, hrepo2, retag_tagOf_ne a _ _ hvM, hrepo1]
    exact retag_tagOf_self a _ _ _
  · rw [htr3, htr2, htr1, htrB, hev1, stepEvents_congr a _ hM1, stepEvents_congr a _ hMM2]
    simp
  · unfold stepEvents
    rw [hasTag_of_tagOf hold]
    rfl
  · have h1 : ∀ v, v ≠ a.version →
        Event.DeleteTag a.version ∉ stepEvents a w.repo.head w.repo v := by
      intro v hv
      unfold stepEvents
      split_ifs <;> simp [createEvent, hv.symm]
    simp only [List.mem_append, not_or]
    exact ⟨⟨by simp [createEvent], h1 _ (fun he => hvM he.symm)⟩, h1 _ (fun he => hvMM he.symm)⟩

/-- C2, witness: `v1.3.2` with aliases on a repository whose alias `v1` is at
commit 0 while the head is commit 2. -/
theorem tag_moves_alias_witness :
    formVXYZ "v1.3.2".toList ∧
    aliasRepository.tagOf "v1".toList = some (TagTarget.tag oldV1) ∧
    ∃ w', tag (sampleApp "v1.3.2" ["v1.3.2", "v1", "v1.3"]) 2 (tagWorld aliasRepository [])
        = (none, w') ∧
      w'.repo.tagOf "v1".toList
        = some (TagTarget.tag (newTag (sampleApp "v1.3.2" ["v1.3.2", "v1", "v1.3"]) 2 "v1".toList)) := by
  have hform : formVXYZ "v1.3.2".toList :=
    ⟨['1'], ['3'], ['2'], [], ⟨by decide, by decide⟩, ⟨by decide, by decide⟩,
      ⟨by decide, by decide⟩, rfl⟩
  obtain ⟨w', evs, htag, -, halias, -⟩ := tag_moves_alias
    (sampleWorld "v1.3.2" "true" "octocat" (profile "") emptyRepository) _
    (sampleApp "v1.3.2" ["v1.3.2", "v1", "v1.3"]) rfl rfl hform 2 (tagWorld aliasRepository [])
    (by intro f hf; simp [tagWorld] at hf) (by decide) (by decide)
    "v1".toList (Or.inl (by decide)) (TagTarget.tag oldV1) (by decide) (by decide)
  exact ⟨hform, by decide, w', htag, halias⟩

/-! ## Stages that push and output nothing -/

theorem Silent.same (w : World) : Silent w w := rfl

theorem Silent.followedBy {w w1 w2 : World} (h1 : Silent w w1) (h2 : Silent w1 w2) : Silent w w2 :=
  Eq.trans h2 h1

theorem Quiet.still (w : World) : Quiet w w := ⟨rfl, rfl, rfl, rfl⟩

theorem Quiet.andThen {w w1 w2 : World} (h1 : Quiet w w1) (h2 : Quiet w1 w2) : Quiet w w2 :=
  ⟨h1.1.followedBy h2.1, h2.2.1.trans h1.2.1, h2.2.2.1.trans h1.2.2.1,
    h2.2.2.2.trans h1.2.2.2⟩

theorem quiet_after (w : World) {e : Event} (he : isPublish e = false) : Quiet w (w.after e) := by
  refine ⟨?_, rfl, rfl, rfl⟩
  simp [Silent, publishes, List.filter_append, he]

theorem quiet_print (w : World) {e : Event} (he : isPublish e = false) : Quiet w (w.print e) := by
  refine ⟨?_, rfl, rfl, rfl⟩
  simp [Silent, publishes, World.print, List.filter_append, he]

theorem quiet_call {w w1 : World} {e : Event} {r : Option Error} (h : w.call e = (r, w1))
    (he : isPublish e = false) : Quiet w w1 := by
  rw [call_world h]; exact quiet_after w he

theorem Do_quiet {url auth : GoString} {w w1 : World} {r : Except Error Response}
    (h : Do url auth w = (r, w1)) : Quiet w w1 ∧ (∀ resp, r = .ok resp → resp = w.response) := by
  unfold Do World.call at h
  cases hf : w.fault with
  | some err =>
    rw [hf] at h
    simp only [Prod.mk.injEq] at h
    obtain ⟨rfl, rfl⟩ := h
    exact ⟨quiet_after w rfl, fun _ hr => by simp at hr⟩
  | none =>
    rw [hf] at h
    simp only [Prod.mk.injEq] at h
    obtain ⟨rfl, rfl⟩ := h
    exact ⟨quiet_after w rfl, fun _ hr => (Except.ok.inj hr).symm⟩

theorem newGitRepo_quiet (w : World) : Quiet w (newGitRepo w).2 := by
  unfold newGitRepo
  rcases h1 : PlainOpen w with ⟨_ | err, w1⟩
  all_goals have q1 : Quiet w w1 := quiet_call h1 rfl
  all_goals dsimp only
  · rcases h2 : Worktree w1 with ⟨_ | err, w2⟩
    all_goals have q2 : Quiet w w2 := q1.andThen (quiet_call h2 rfl)
    all_goals dsimp only
    · split_ifs
      · exact q2
      · rcases h3 : NewRequest ("https://api.github.com/users/".toList ++ Getenv w2 "GITHUB_ACTOR") w2
          with ⟨_ | err, w3⟩
        all_goals have q3 : Quiet w w3 := q2.andThen (quiet_call h3 rfl)
        all_goals dsimp only
        · rcases h4 : Do ("https://api.github.com/users/".toList ++ Getenv w2 "GITHUB_ACTOR")
            ("Bearer ".toList ++ Getenv w3 "GITHUB_TOKEN") w3 with ⟨_ | resp, w4⟩
          all_goals have q4 : Quiet w w4 := q3.andThen (Do_quiet h4).1
          all_goals dsimp only
          · exact q4
          · split_ifs
            · exact q4
            · rcases h5 : ReadAll w4 with ⟨_ | err, w5⟩
              all_goals have q5 : Quiet w w5 := q4.andThen (quiet_call h5 rfl)
              all_goals dsimp only
              · split
                · exact q5
                · exact q5
              · exact q5
        · exact q3
    · exact q2
  · exact q1

theorem new_quiet (w : World) : Quiet w (new w).2 := by
  unfold new
  dsimp only
  split
  · exact Quiet.still w
  split
  · exact Quiet.still w
  · rcases h1 : NewParser (if Getenv w "CHANGELOG_FILE" ≠ [] then Getenv w "CHANGELOG_FILE"
        else "CHANGELOG.md".toList) w with ⟨_ | err, w1⟩
    all_goals have q1 : Quiet w w1 := quiet_call h1 rfl
    all_goals dsimp only
    · rcases h2 : Parse w1 with ⟨_ | err, w2⟩
      all_goals have q2 : Quiet w w2 := q1.andThen (quiet_call h2 rfl)
      all_goals dsimp only
      · have q3 : Quiet w (newGitRepo w2).2 := q2.andThen (newGitRepo_quiet w2)
        rcases h3 : newGitRepo w2 with ⟨_ | g, w3⟩
        all_goals rw [h3] at q3
        all_goals exact q3
      · exact q2
    · exact q1

theorem releaseURL_quiet (sortSort : List ChangelogRelease → List ChangelogRelease) (a : app)
    (w : World) : Quiet w (releaseURL sortSort a w).2 ∧ (releaseURL sortSort a w).2.repo = w.repo := by
  obtain ⟨htr, -, -, henv, hrepo⟩ := releaseURL_env sortSort a w
  exact ⟨⟨by unfold Silent; rw [htr], by rw [hrepo], by rw [hrepo], henv⟩, hrepo⟩

theorem CreateReleaseFromUnreleasedWithURL_quiet {version date url : GoString} {w w1 : World}
    {r : Option Error} (h : CreateReleaseFromUnreleasedWithURL version date url w = (r, w1)) :
    Quiet w w1 ∧ w1.repo = w.repo := by
  unfold CreateReleaseFromUnreleasedWithURL World.call at h
  cases hf : w.fault with
  | some err =>
    rw [hf] at h
    simp only [Prod.mk.injEq] at h
    obtain ⟨-, rfl⟩ := h
    exact ⟨quiet_after w rfl, rfl⟩
  | none =>
    rw [hf] at h
    simp only [Prod.mk.injEq] at h
    obtain ⟨-, rfl⟩ := h
    exact ⟨quiet_after w rfl, rfl⟩

theorem SetUnreleasedURL_quiet {url : GoString} {w w1 : World} {r : Option Error}
    (h : SetUnreleasedURL url w = (r, w1)) : Quiet w w1 ∧ w1.repo = w.repo := by
  unfold SetUnreleasedURL World.call at h
  cases hf : w.fault with
  | some err =>
    rw [hf] at h
    simp only [Prod.mk.injEq] at h
    obtain ⟨-, rfl⟩ := h
    exact ⟨quiet_after w rfl, rfl⟩
  | none =>
    rw [hf] at h
    simp only [Prod.mk.injEq] at h
    obtain ⟨-, rfl⟩ := h
    exact ⟨quiet_after w rfl, rfl⟩

theorem SaveToFile_quiet {filename : GoString} {w w1 : World} {r : Option Error}
    (h : SaveToFile filename w = (r, w1)) :
    Quiet w w1 ∧ w1.repo = w.repo ∧ (r = none → w1.saved = some (filename, w1.document)) := by
  unfold SaveToFile World.call at h
  cases hf : w.fault with
  | some err =>
    rw [hf] at h
    simp only [Prod.mk.injEq] at h
    obtain ⟨rfl, rfl⟩ := h
    exact ⟨quiet_after w rfl, rfl, fun hr => by simp at hr⟩
  | none =>
    rw [hf] at h
    simp only [Prod.mk.injEq] at h
    obtain ⟨rfl, rfl⟩ := h
    exact ⟨quiet_after w rfl, rfl, fun _ => rfl⟩

/-- The stage `updateChangelog` pushes and outputs nothing and leaves the repository
alone; when it succeeds, the file has been written with the document. -/
theorem updateChangelog_quiet (sortSort : List ChangelogRelease → List ChangelogRelease)
    (a : app) (w : World) :
    Quiet w (updateChangelog sortSort a w).2 ∧
    ((updateChangelog sortSort a w).1 = none →
      (updateChangelog sortSort a w).2.saved
        = some (a.changelog.filename, (updateChangelog sortSort a w).2.document)) := by
  obtain ⟨q0, -⟩ := releaseURL_quiet sortSort a w
  unfold updateChangelog
  rcases hr : releaseURL sortSort a w with ⟨url, w0⟩
  rw [hr] at q0
  dsimp only at q0 ⊢
  rcases h1 : CreateReleaseFromUnreleasedWithURL (strings.TrimPrefix a.version "v".toList) w0.today url w0
    with ⟨_ | err, w1⟩
  all_goals have q1 : Quiet w w1 := q0.andThen (CreateReleaseFromUnreleasedWithURL_quiet h1).1
  all_goals dsimp only
  · rcases h2 : SetUnreleasedURL ("https://github.com/".toList ++
      Getenv w "GITHUB_REPOSITORY" ++ "/compare/".toList ++ a.version ++ "...HEAD".toList) w1
      with ⟨_ | err, w2⟩
    all_goals have q2 : Quiet w w2 := q1.andThen (SetUnreleasedURL_quiet h2).1
    all_goals dsimp only
    · rcases h3 : SaveToFile a.changelog.filename w2 with ⟨_ | err, w3⟩
      all_goals have q3 : Quiet w w3 := q2.andThen (SaveToFile_quiet h3).1
      all_goals dsimp only
      · exact ⟨q3, fun _ => (SaveToFile_quiet h3).2.2 rfl⟩
      · exact ⟨q3, fun hn => by simp at hn⟩
    · exact ⟨q2, fun hn => by simp at hn⟩
  · exact ⟨q1, fun hn => by simp at hn⟩

theorem Commit_quiet {message : GoString} {author committer : Signature} {w w1 : World}
    {r : Except Error Hash} (h : Commit message author committer w = (r, w1)) :
    Quiet w w1 ∧ w1.saved = w.saved ∧ (∀ c, r = .ok c → w1.repo.head = c) := by
  unfold Commit World.call at h
  cases hf : w.fault with
  | some err =>
    rw [hf] at h
    simp only [Prod.mk.injEq] at h
    obtain ⟨rfl, rfl⟩ := h
    exact ⟨quiet_after w rfl, rfl, fun _ hr => by simp at hr⟩
  | none =>
    rw [hf] at h
    simp only [Prod.mk.injEq] at h
    obtain ⟨rfl, rfl⟩ := h
    have q := quiet_after w (e := Event.Commit message author committer) rfl
    refine ⟨⟨q.1, rfl, rfl, rfl⟩, rfl, fun c hc => ?_⟩
    exact Except.ok.inj hc

/-- The stage `commit` pushes and outputs nothing and leaves tag objects and the written
file alone; when it succeeds, the head is the commit it returns. -/
theorem commit_quiet (a : app) (w : World) :
    Quiet w (commit a w).2 ∧ (commit a w).2.saved = w.saved ∧
    (∀ c, (commit a w).1 = .ok c → (commit a w).2.repo.head = c) := by
  unfold commit
  rcases h1 : Add a.changelog.filename w with ⟨_ | err, w1⟩
  all_goals have q1 : Quiet w w1 := quiet_call h1 rfl
  all_goals have s1 : w1.saved = w.saved := by rw [call_world h1]; rfl
  all_goals dsimp only
  · rcases h2 : Commit (strings.TrimPrefix a.version "v".toList) a.git.author a.git.committer w1
      with ⟨_ | c, w2⟩
    all_goals obtain ⟨q2, s2, hc⟩ := Commit_quiet h2
    all_goals dsimp only
    · exact ⟨q1.andThen q2, s2.trans s1, fun c hc' => by simp at hc'⟩
    · refine ⟨q1.andThen q2, s2.trans s1, fun c' hc' => ?_⟩
      rw [hc c rfl]
      exact Except.ok.inj hc'
  · exact ⟨q1, s1, fun c hc' => by simp at hc'⟩

theorem silent_of_trace {w w' : World} {evs : List Event} (h : w'.trace = w.trace ++ evs)
    (hev : ∀ e ∈ evs, isPublish e = false) : Silent w w' := by
  unfold Silent publishes
  rw [h, List.filter_append]
  have : evs.filter isPublish = [] := by
    rw [List.filter_eq_nil_iff]
    intro e he
    simp [hev e he]
  rw [this, List.append_nil]

theorem tagStep_silent {a : app} {h : Hash} {v : GoString} {w w1 : World} {r : Option Error}
    (hs : tagStep a h v w = (r, w1)) : Silent w w1 := by
  cases r with
  | none =>
    rcases (tagStep_none hs).2.2.2 with ht | ⟨-, ht⟩
    all_goals exact silent_of_trace ht (by simp [createEvent, isPublish])
  | some err =>
    rcases (tagStep_some hs).2.2 with ht | ⟨-, ht⟩ | ⟨-, ht⟩
    all_goals exact silent_of_trace ht (by simp [createEvent, isPublish])

theorem tagLoop_silent (a : app) (h : Hash) :
    ∀ (l : List GoString) (w : World), Silent w (tagLoop a h l w).2 := by
  intro l
  induction l with
  | nil => intro w; exact Silent.same w
  | cons v vs ih =>
    intro w
    simp only [tagLoop]
    rcases hs : tagStep a h v w with ⟨_ | err, w1⟩
    · exact (tagStep_silent hs).followedBy (ih w1)
    · exact tagStep_silent hs

/-- The stage `app.tag` pushes and outputs nothing. -/
theorem tag_silent (a : app) (c : Hash) (w : World) : Silent w (tag a c w).2 := by
  unfold tag
  rw [checkVersionTagExistence_eq]
  have q1 : Silent w (w.after Event.TagObjects) := (quiet_after w (e := Event.TagObjects) rfl).1
  cases hf : w.fault with
  | some err => exact q1
  | none =>
    dsimp only
    have q2 : Silent w ((w.after Event.TagObjects).after Event.ForEach) :=
      q1.followedBy (quiet_after _ (e := Event.ForEach) rfl).1
    cases hf2 : (w.after Event.TagObjects).fault with
    | some err => exact q2
    | none =>
      dsimp only
      by_cases hex : ∃ t ∈ w.repo.objects, t.Name = a.version
      · rw [decide_eq_true hex]
        exact q2
      · rw [decide_eq_false hex]
        dsimp only
        unfold Head World.call
        have q3 : Silent w (((w.after Event.TagObjects).after Event.ForEach).after Event.Head) :=
          q2.followedBy (quiet_after _ (e := Event.Head) rfl).1
        cases hf3 : ((w.after Event.TagObjects).after Event.ForEach).fault with
        | some err => exact q3
        | none => exact q3.followedBy (tagLoop_silent a _ _ _)

theorem pushLoop_extends (a : app) :
    ∀ (l : List GoString) (w : World), w.trace <+: (pushLoop a l w).2.trace := by
  intro l
  induction l with
  | nil => intro w; exact List.prefix_refl _
  | cons v vs ih =>
    intro w
    simp only [pushLoop]
    generalize (if v ≠ a.version then
        ({ RefSpecs := [tagRefSpec v], Auth := a.git.auth, Force := true } : PushOptions)
        else { RefSpecs := [tagRefSpec v], Auth := a.git.auth, Force := false }) = o
    unfold Push
    rcases hc : w.call (Event.Push o) with ⟨_ | err, w1⟩
    all_goals have hw1 := call_world hc
    all_goals have hp : w.trace <+: w1.trace := by rw [hw1]; exact List.prefix_append _ _
    all_goals dsimp only
    · exact hp.trans (ih w1)
    · exact hp

theorem push_extends (a : app) (w : World) : w.trace <+: (push a w).2.trace := by
  unfold push Push
  rcases hc : w.call (Event.Push { RefSpecs := [], Auth := a.git.auth, Force := false })
    with ⟨_ | err, w1⟩
  all_goals have hw1 := call_world hc
  all_goals have hp : w.trace <+: w1.trace := by rw [hw1]; exact List.prefix_append _ _
  all_goals dsimp only
  · exact hp.trans (pushLoop_extends a _ w1)
  · exact hp

theorem outputLoop_extends :
    ∀ (l : List (GoString × GoString)) (w : World), w.trace <+: (outputLoop l w).2.trace := by
  intro l
  induction l with
  | nil => intro w; exact List.prefix_refl _
  | cons kv rest ih =>
    intro w
    obtain ⟨k, v⟩ := kv
    simp only [outputLoop]
    unfold output
    rcases hc : (w.print (Event.Print "- creating output: %s=%s\n" [k, v])).call (Event.Output k v)
      with ⟨_ | err, w1⟩
    all_goals have hw1 := call_world hc
    all_goals have hp : w.trace <+: w1.trace :=
      hw1 ▸ (List.prefix_append w.trace _).trans (List.prefix_append _ [Event.Output k v])
    all_goals dsimp only
    · exact hp.trans (ih w1)
    · exact hp

/-! ## C8: the order of the pipeline -/

theorem fatal_quiet (err : Error) (w : World) : Quiet w (fatal err w).2 ∧ (fatal err w).1 = 1 :=
  ⟨quiet_print w rfl, rfl⟩

theorem quiet_println (w : World) (line : String) : Quiet w (w.print (Event.Print line [])) :=
  quiet_print w rfl

/-- A run either exits with status 1 having pushed and output nothing, or its
four stages before the push have succeeded one after the other. -/
theorem main_cases (sortSort : List ChangelogRelease → List ChangelogRelease) (w : World) :
    ((main sortSort w).1 = 1 ∧ Silent w (main sortSort w).2) ∨
    ∃ a w1 w2 c w3 w4,
      new (w.print (Event.Print "- initializing action" [])) = (.ok a, w1) ∧
      updateChangelog sortSort a (w1.print (Event.Print "- updating changelog file" []))
        = (none, w2) ∧
      commit a (w2.print (Event.Print "- committing changes" [])) = (.ok c, w3) ∧
      tag a c (w3.print (Event.Print "- creating tags" [])) = (none, w4) ∧
      Silent w w4 ∧ w4.trace <+: (main sortSort w).2.trace := by
  unfold main
  dsimp only
  have q0 : Quiet w (w.print (Event.Print "- initializing action" [])) := quiet_print w rfl
  have qn := new_quiet (w.print (Event.Print "- initializing action" []))
  rcases hn : new (w.print (Event.Print "- initializing action" [])) with ⟨err | a, w1⟩
  all_goals rw [hn] at qn
  all_goals have q1 : Quiet w w1 := q0.andThen qn
  all_goals dsimp only
  · exact Or.inl ⟨rfl, (q1.andThen (fatal_quiet _ w1).1).1⟩
  have qu := (updateChangelog_quiet sortSort a
    (w1.print (Event.Print "- updating changelog file" []))).1
  rcases hu : updateChangelog sortSort a (w1.print (Event.Print "- updating changelog file" []))
    with ⟨_ | err, w2⟩
  all_goals rw [hu] at qu
  all_goals have q2 : Quiet w w2 := (q1.andThen (quiet_println w1 _)).andThen qu
  all_goals dsimp only
  swap
  · exact Or.inl ⟨rfl, (q2.andThen (fatal_quiet _ w2).1).1⟩
  have qc := (commit_quiet a (w2.print (Event.Print "- committing changes" []))).1
  rcases hc : commit a (w2.print (Event.Print "- committing changes" [])) with ⟨err | c, w3⟩
  all_goals rw [hc] at qc
  all_goals have q3 : Quiet w w3 := (q2.andThen (quiet_println w2 _)).andThen qc
  all_goals dsimp only
  · exact Or.inl ⟨rfl, (q3.andThen (fatal_quiet _ w3).1).1⟩
  have qt := tag_silent a c (w3.print (Event.Print "- creating tags" []))
  rcases ht : tag a c (w3.print (Event.Print "- creating tags" [])) with ⟨_ | err, w4⟩
  all_goals rw [ht] at qt
  all_goals have q4 : Silent w w4 := (q3.andThen (quiet_println w3 _)).1.followedBy qt
  all_goals dsimp only
  swap
  · exact Or.inl ⟨rfl, q4.followedBy (fatal_quiet _ w4).1.1⟩
  refine Or.inr ⟨a, w1, w2, c, w3, w4, rfl, hu, hc, ht, q4, ?_⟩
  have p0 : w4.trace <+: (w4.print (Event.Print "- pushing changes" [])).trace :=
    List.prefix_append _ _
  have pp := push_extends a (w4.print (Event.Print "- pushing changes" []))
  rcases hp : push a (w4.print (Event.Print "- pushing changes" [])) with ⟨_ | err, w5⟩
  all_goals rw [hp] at pp
  all_goals have p5 : w4.trace <+: w5.trace := p0.trans pp
  all_goals dsimp only
  swap
  · exact p5.trans (List.prefix_append _ _)
  generalize (if w5.hashFirst = true
      then [("hash".toList, Hash.String c), ("tag".toList, a.version)]
      else [("tag".toList, a.version), ("hash".toList, Hash.String c)]) = o
  have po := outputLoop_extends o w5
  rcases ho : outputLoop o w5 with ⟨_ | err, w6⟩
  all_goals rw [ho] at po
  all_goals dsimp only
  all_goals exact (p5.trans po).trans (List.prefix_append _ _)

/-- C8: in every run of `main`, if anything was pushed or output, then `new`,
`updateChangelog`, `commit` and `tag` had succeeded one after the other, each
starting from the world the previous one left, and nothing had been pushed or
output up to the end of `tag`, which is a prefix of the run.  When a tag named
like the version exists, as a tag object or as a reference, the run exits with
status 1 and pushes and outputs nothing; if moreover the first three stages
succeed, the changelog file has been written, the head is the new commit, and
the run ends by printing the error of the tag stage, with the file and the
repository left as they were after the commit. -/
theorem main_pushes_last (sortSort : List ChangelogRelease → List ChangelogRelease)
    (w : World) :
    (publishes (main sortSort w).2.trace ≠ publishes w.trace →
      ∃ a w1 w2 c w3 w4,
        new (w.print (Event.Print "- initializing action" [])) = (.ok a, w1) ∧
        updateChangelog sortSort a (w1.print (Event.Print "- updating changelog file" []))
          = (none, w2) ∧
        commit a (w2.print (Event.Print "- committing changes" [])) = (.ok c, w3) ∧
        tag a c (w3.print (Event.Print "- creating tags" [])) = (none, w4) ∧
        publishes w4.trace = publishes w.trace ∧
        w4.trace <+: (main sortSort w).2.trace) ∧
    (((∃ t ∈ w.repo.objects, t.Name = Getenv w "VERSION") ∨
        w.repo.hasTag (Getenv w "VERSION") = true) →
      (main sortSort w).1 = 1 ∧
      publishes (main sortSort w).2.trace = publishes w.trace ∧
      ∀ a w1 w2 c w3,
        new (w.print (Event.Print "- initializing action" [])) = (.ok a, w1) →
        updateChangelog sortSort a (w1.print (Event.Print "- updating changelog file" []))
          = (none, w2) →
        commit a (w2.print (Event.Print "- committing changes" [])) = (.ok c, w3) →
        w2.saved = some (a.changelog.filename, w2.document) ∧
        (main sortSort w).2.saved = w2.saved ∧
        w3.repo.head = c ∧
        (main sortSort w).2.repo = w3.repo ∧
        ∃ err, (tag a c (w3.print (Event.Print "- creating tags" []))).1 = some err ∧
          (main sortSort w).2.trace =
            (tag a c (w3.print (Event.Print "- creating tags" []))).2.trace ++
              [Event.PrintError (wrap "error creating tags: %s" [] err)]) := by
  have hstage : ∀ a w1 w2 c w3,
      new (w.print (Event.Print "- initializing action" [])) = (.ok a, w1) →
      updateChangelog sortSort a (w1.print (Event.Print "- updating changelog file" []))
        = (none, w2) →
      commit a (w2.print (Event.Print "- committing changes" [])) = (.ok c, w3) →
      ((∃ t ∈ w.repo.objects, t.Name = Getenv w "VERSION") ∨
        w.repo.hasTag (Getenv w "VERSION") = true) →
      ∃ rest, a.refs = a.version :: rest ∧
        ((∃ t ∈ (w3.print (Event.Print "- creating tags" [])).repo.objects, t.Name = a.version) ∨
          (w3.print (Event.Print "- creating tags" [])).repo.hasTag a.version = true) := by
    intro a w1 w2 c w3 hn hu hc hex
    have qn := new_quiet (w.print (Event.Print "- initializing action" []))
    have qu := (updateChangelog_quiet sortSort a
      (w1.print (Event.Print "- updating changelog file" []))).1
    have qc := (commit_quiet a (w2.print (Event.Print "- committing changes" []))).1
    rw [hn] at qn
    rw [hu] at qu
    rw [hc] at qc
    have q := ((((quiet_println w "- initializing action").andThen qn).andThen
      ((quiet_println w1 "- updating changelog file").andThen qu)).andThen
      ((quiet_println w2 "- committing changes").andThen qc)).andThen
      (quiet_println w3 "- creating tags")
    obtain ⟨hv, -, u, -, hrefs⟩ := new_ok hn
    have hv' : a.version = Getenv w "VERSION" := hv
    refine ⟨if u = true then [semver.Major a.version, semver.MajorMinor a.version] else [], ?_, ?_⟩
    · rw [hrefs]; split_ifs <;> rfl
    · rcases hex with ⟨t, ht, hname⟩ | href
      · exact Or.inl ⟨t, by rw [q.2.1]; exact ht, by rw [hv']; exact hname⟩
      · right
        unfold Repository.hasTag at href ⊢
        rw [q.2.2.1, hv']
        exact href
  constructor
  · intro hpub
    rcases main_cases sortSort w with ⟨-, hs⟩ | ⟨a, w1, w2, c, w3, w4, hn, hu, hc, ht, hs, hp⟩
    · exact absurd hs hpub
    · exact ⟨a, w1, w2, c, w3, w4, hn, hu, hc, ht, hs, hp⟩
  · intro hex
    refine ⟨?_, ?_, ?_⟩
    · rcases main_cases sortSort w with ⟨h1, -⟩ | ⟨a, w1, w2, c, w3, w4, hn, hu, hc, htag, -, -⟩
      · exact h1
      · obtain ⟨rest, hrefs, hex3⟩ := hstage a w1 w2 c w3 hn hu hc hex
        obtain ⟨err, herr, -⟩ := tag_of_existing a c (w3.print (Event.Print "- creating tags" []))
          rest hrefs hex3
        rw [htag] at herr
        simp at herr
    · rcases main_cases sortSort w with ⟨-, hs⟩ | ⟨a, w1, w2, c, w3, w4, hn, hu, hc, htag, -, -⟩
      · exact hs
      · obtain ⟨rest, hrefs, hex3⟩ := hstage a w1 w2 c w3 hn hu hc hex
        obtain ⟨err, herr, -⟩ := tag_of_existing a c (w3.print (Event.Print "- creating tags" []))
          rest hrefs hex3
        rw [htag] at herr
        simp at herr
    · intro a w1 w2 c w3 hn hu hc
      obtain ⟨rest, hrefs, hex3⟩ := hstage a w1 w2 c w3 hn hu hc hex
      obtain ⟨err, herr, hworld⟩ := tag_of_existing a c
        (w3.print (Event.Print "- creating tags" [])) rest hrefs hex3
      have hsaved := (updateChangelog_quiet sortSort a
        (w1.print (Event.Print "- updating changelog file" []))).2
      rw [hu] at hsaved
      obtain ⟨-, hcs, hhead⟩ := commit_quiet a (w2.print (Event.Print "- committing changes" []))
      rw [hc] at hcs hhead
      have hmain : main sortSort w = fatal (wrap "error creating tags: %s" [] err)
          (tag a c (w3.print (Event.Print "- creating tags" []))).2 := by
        unfold main
        dsimp only
        rw [hn]
        dsimp only
        rw [hu]
        dsimp only
        rw [hc]
        dsimp only
        rcases htag : tag a c (w3.print (Event.Print "- creating tags" [])) with ⟨r, w4⟩
        rw [htag] at herr
        dsimp only at herr
        subst herr
        rfl
      rw [hmain]
      refine ⟨hsaved rfl, ?_, hhead c rfl, ?_, err, herr, rfl⟩
      · have hs4 : (tag a c (w3.print (Event.Print "- creating tags" []))).2.saved = w2.saved := by
          rcases hworld with hw4 | hw4 | hw4 | hw4
          all_goals rw [hw4]
          all_goals exact hcs
        exact hs4
      · have hr4 : (tag a c (w3.print (Event.Print "- creating tags" []))).2.repo = w3.repo := by
          rcases hworld with hw4 | hw4 | hw4 | hw4
          all_goals rw [hw4]
          all_goals rfl
        exact hr4

/-- C8, witness: a run for `v1.0.0` on a repository that already has the
annotated tag `v1.0.0`, and one on a repository that has `v1.0.0` as a
lightweight tag: each exits with status 1 without any push or output, after
the changelog has been written and the commit 2 created; the last line is the
error of the tag stage. -/
theorem main_pushes_last_witness :
    (∃ t ∈ (sampleWorld "v1.0.0" "false" "octocat" (profile "")
        (taggedRepository "v1.0.0")).repo.objects,
      t.Name = Getenv (sampleWorld "v1.0.0" "false" "octocat" (profile "")
        (taggedRepository "v1.0.0")) "VERSION") ∧
    (main sort.insertionSort (sampleWorld "v1.0.0" "false" "octocat" (profile "")
      (taggedRepository "v1.0.0"))).1 = 1 ∧
    publishes (main sort.insertionSort (sampleWorld "v1.0.0" "false" "octocat" (profile "")
      (taggedRepository "v1.0.0"))).2.trace = [] ∧
    ((main sort.insertionSort (sampleWorld "v1.0.0" "false" "octocat" (profile "")
      (taggedRepository "v1.0.0"))).2.saved.map Prod.fst = some "CHANGELOG.md".toList) ∧
    (main sort.insertionSort (sampleWorld "v1.0.0" "false" "octocat" (profile "")
      (taggedRepository "v1.0.0"))).2.repo.head = 2 ∧
    (main sort.insertionSort (sampleWorld "v1.0.0" "false" "octocat" (profile "")
      (taggedRepository "v1.0.0"))).2.trace.getLast? =
      some (Event.PrintError (wrap "error creating tags: %s" [] Error.ErrTagExists)) ∧
    (sampleWorld "v1.0.0" "false" "octocat" (profile "")
        (lightweightRepository "v1.0.0")).repo.objects = [] ∧
    (sampleWorld "v1.0.0" "false" "octocat" (profile "")
        (lightweightRepository "v1.0.0")).repo.hasTag
      (Getenv (sampleWorld "v1.0.0" "false" "octocat" (profile "")
        (lightweightRepository "v1.0.0")) "VERSION") = true ∧
    (main sort.insertionSort (sampleWorld "v1.0.0" "false" "octocat" (profile "")
      (lightweightRepository "v1.0.0"))).1 = 1 ∧
    publishes (main sort.insertionSort (sampleWorld "v1.0.0" "false" "octocat" (profile "")
      (lightweightRepository "v1.0.0"))).2.trace = [] ∧
    ((main sort.insertionSort (sampleWorld "v1.0.0" "false" "octocat" (profile "")
      (lightweightRepository "v1.0.0"))).2.saved.map Prod.fst = some "CHANGELOG.md".toList) ∧
    (main sort.insertionSort (sampleWorld "v1.0.0" "false" "octocat" (profile "")
      (lightweightRepository "v1.0.0"))).2.repo.head = 2 ∧
    (main sort.insertionSort (sampleWorld "v1.0.0" "false" "octocat" (profile "")
      (lightweightRepository "v1.0.0"))).2.trace.getLast? =
      some (Event.PrintError (wrap "error creating tags: %s" []
        (wrap "error tagging a commit (%s): %s" ["v1.0.0".toList] Error.ErrTagExists))) :=
  have hex : ∃ t ∈ (sampleWorld "v1.0.0" "false" "octocat" (profile "")
      (taggedRepository "v1.0.0")).repo.objects,
      t.Name = Getenv (sampleWorld "v1.0.0" "false" "octocat" (profile "")
        (taggedRepository "v1.0.0")) "VERSION" :=
    ⟨_, List.mem_singleton.mpr rfl, rfl⟩
  have href : (sampleWorld "v1.0.0" "false" "octocat" (profile "")
        (lightweightRepository "v1.0.0")).repo.hasTag
      (Getenv (sampleWorld "v1.0.0" "false" "octocat" (profile "")
        (lightweightRepository "v1.0.0")) "VERSION") = true := by decide
  ⟨hex,
    ((main_pushes_last sort.insertionSort (sampleWorld "v1.0.0" "false" "octocat" (profile "")
      (taggedRepository "v1.0.0"))).2 (Or.inl hex)).1,
    ((main_pushes_last sort.insertionSort (sampleWorld "v1.0.0" "false" "octocat" (profile "")
      (taggedRepository "v1.0.0"))).2 (Or.inl hex)).2.1,
    by decide, by decide, by decide, rfl, href,
    ((main_pushes_last sort.insertionSort (sampleWorld "v1.0.0" "false" "octocat" (profile "")
      (lightweightRepository "v1.0.0"))).2 (Or.inr href)).1,
    ((main_pushes_last sort.insertionSort (sampleWorld "v1.0.0" "false" "octocat" (profile "")
      (lightweightRepository "v1.0.0"))).2 (Or.inr href)).2.1,
    by decide, by decide, by decide⟩

end Release
